import Mathlib

/-!
Verification of the robin-hood hash map (package rhmap, file map.go).

The development shallowly embeds the data model and the operations of the
current revision of map.go: the slot type `element[K, V]`, the table type
`Map[K, V]`, and the operations `New`, `Set`, `Get`, `GetWithIndex`,
`Delete`, `Len`, together with the internal helpers `getIndexOfKeyAtPsl`,
`rehashTable`, `insertKeyValuePair`, `updateMaxStatsOnInsert`,
`updateMaxStatsOnDelete`.
-/

set_option maxRecDepth 10000
set_option linter.unusedSectionVars false

namespace Rhmap

/-- Slot of the table; models the Go struct element[K, V] with fields
key, value, psl (a Go uint, modelled as Nat) and set. -/
structure Elem (K V : Type) where
  key : K
  value : V
  psl : Nat
  set : Bool
  deriving DecidableEq

/-- The robin-hood hash map, modelling the Go struct Map[K, V].  The Go
fields hasher, k0 and k1 are collapsed into the single field `hash`: for
the lifetime of a table the source always computes
hasher(k0, k1, encodeKey(key)) where the seeds are drawn once in New and
encodeKey is a deterministic canonical byte encoding of the key, so that
composite is a fixed pure function of the key and is modelled as one
function returning the 64-bit digest as a Nat.  The constant field
loadFactor (always 0.9) is folded into `loadCheck` below.  Go uint and
uint64 fields are modelled as Nat; subtractions that the source guards so
that they cannot wrap use Nat subtraction, and the unguarded ones carry an
explicit modulus 2 ^ 64. -/
structure Map (K V : Type) where
  hash : K → Nat
  numElements : Nat
  elements : List (Elem K V)
  size : Nat
  totalPsl : Nat
  maxPsl : Nat
  maxFreq : Nat

variable {K V : Type} [DecidableEq K] [Inhabited K] [Inhabited V]

/-- Go zero value of element[K, V]: what make allocates in every slot and
what clearing a slot with element[K, V]{} stores. -/
def zeroElem : Elem K V := ⟨default, default, 0, false⟩

/-- Indexing m.elements[i].  Every call site in the source indexes with a
value already reduced modulo m.size, and the table keeps
len(elements) = size, so the default of getD is never read on the states
the theorems below quantify over. -/
def getSlot (m : Map K V) (i : Nat) : Elem K V := m.elements.getD i zeroElem

/-- The constant defaultSize from map.go. -/
def defaultSize : Nat := 8

/-- The constructor New; the variadic size argument is modelled as a list.
A missing or zero first argument falls back to defaultSize. -/
def New (hash : K → Nat) (size : List Nat) : Map K V :=
  let mapSize := match size with
    | s :: _ => if 0 < s then s else defaultSize
    | [] => defaultSize
  { hash := hash, numElements := 0,
    elements := List.replicate mapSize zeroElem,
    size := mapSize, totalPsl := 0, maxPsl := 0, maxFreq := 0 }

/-- The helper getIndexOfKeyAtPsl: home index plus offset, with wraparound. -/
def getIndexOfKeyAtPsl (m : Map K V) (key : K) (psl : Nat) : Nat :=
  (m.hash key % m.size + psl) % m.size

/-- Residual down-loop of GetWithIndex (in Go: for ; downPsl >= 0;
downPsl--), entered with the current non-negative value of downPsl; the
zero case is the last iteration, after which downPsl would be -1. -/
def downScan (m : Map K V) (key : K) : Nat → V × Bool × Nat
  | 0 =>
    let idx := getIndexOfKeyAtPsl m key 0
    let e := getSlot m idx
    if e.set ∧ e.key = key then (e.value, true, idx) else (default, false, 0)
  | d + 1 =>
    let idx := getIndexOfKeyAtPsl m key (d + 1)
    let e := getSlot m idx
    if e.set ∧ e.key = key then (e.value, true, idx) else downScan m key d

/-- Recursion core of the residual up-loop of GetWithIndex: `c` counts
the iterations that remain, so a positive `c` is the loop condition
upPsl <= m.maxPsl and `c = 0` is its failure.  The counter makes the
recursion structural, so that the kernel can evaluate the function on
concrete tables. -/
def upScanAux (m : Map K V) (key : K) : Nat → Nat → V × Bool × Nat
  | 0, _ => (default, false, 0)
  | c + 1, u =>
    let idx := getIndexOfKeyAtPsl m key u
    let e := getSlot m idx
    if e.set ∧ e.key = key then (e.value, true, idx)
    else upScanAux m key c (u + 1)

/-- Residual up-loop of GetWithIndex (in Go: for ; upPsl <= m.maxPsl;
upPsl++), entered at the current value `u` of upPsl: the remaining
iteration count is m.maxPsl + 1 - u, which is positive exactly when
u ≤ m.maxPsl, and decreases by one as u increases by one. -/
def upScan (m : Map K V) (key : K) (u : Nat) : V × Bool × Nat :=
  upScanAux m key (m.maxPsl + 1 - u) u

/-- The main bidirectional loop of GetWithIndex (in Go:
for ; downPsl >= 0 && upPsl <= m.maxPsl; downPsl, upPsl = downPsl-1, upPsl+1)
together with the two residual loops it falls through to.  Go declares
downPsl as a signed int; it is represented here by the Nat `d` while it is
non-negative, and the `d = 0` step corresponds to downPsl reaching -1,
after which only the residual up-loop (from the incremented upPsl) can
still run; if instead the up bound is exhausted first, only the residual
down-loop (from the current downPsl) runs, followed by the then-empty
up-loop. -/
def biScan (m : Map K V) (key : K) : Nat → Nat → V × Bool × Nat
  | d, u =>
    if u ≤ m.maxPsl then
      let dIdx := getIndexOfKeyAtPsl m key d
      let dE := getSlot m dIdx
      if dE.set ∧ dE.key = key then (dE.value, true, dIdx)
      else
        let uIdx := getIndexOfKeyAtPsl m key u
        let uE := getSlot m uIdx
        if uE.set ∧ uE.key = key then (uE.value, true, uIdx)
        else
          match d with
          | 0 => upScan m key (u + 1)
          | d' + 1 => biScan m key d' (u + 1)
    else downScan m key d

/-- The method GetWithIndex: early return on an empty table, then the
bidirectional sweep started at the mean PSL totalPsl / numElements
(downPsl = mean, upPsl = mean + 1), followed by the two residual loops
(folded into the exit branches of biScan). -/
def GetWithIndex (m : Map K V) (key : K) : V × Bool × Nat :=
  if m.numElements = 0 then (default, false, 0)
  else
    let avg := m.totalPsl / m.numElements
    biScan m key avg (avg + 1)

/-- The method Get: projection of GetWithIndex. -/
def Get (m : Map K V) (key : K) : V × Bool :=
  let r := GetWithIndex m key
  (r.1, r.2.1)

/-- The method updateMaxStatsOnInsert. -/
def updateMaxStatsOnInsert (m : Map K V) (newElemPsl : Nat) : Map K V :=
  if m.maxPsl < newElemPsl then { m with maxPsl := newElemPsl, maxFreq := 1 }
  else if newElemPsl = m.maxPsl then { m with maxFreq := m.maxFreq + 1 }
  else m

/-- The method updateMaxStatsOnDelete.  Both decrements are Go uint
decrements, so they wrap modulo 2 ^ 64 when the field is 0 (for a Nat
value x with 1 ≤ x < 2 ^ 64 the expression below equals x - 1). -/
def updateMaxStatsOnDelete (m : Map K V) : Map K V :=
  if m.maxFreq = 1 then { m with maxPsl := (m.maxPsl + (2 ^ 64 - 1)) % 2 ^ 64 }
  else { m with maxFreq := (m.maxFreq + (2 ^ 64 - 1)) % 2 ^ 64 }

/-- The probe loop of insertKeyValuePair (in Go:
for ; m.elements[i].set; i = (i+1) % m.size), carrying the traveling
entry `e`.  In Go the loop exits only by reaching an empty slot; `fuel`
bounds the number of iterations the model performs, and `none` marks the
table-full situation in which the Go loop would never exit.  The callers
below instantiate fuel = m.size, which is shown (lemma insertLoop_isSome)
to be enough whenever an empty slot exists.  Inside the swap branch the
Go statement m.totalPsl += uint64(newElem.psl - oldElem.psl) subtracts
under the guard newElem.psl > oldElem.psl, so Nat subtraction is exact. -/
def insertLoop (m : Map K V) (e : Elem K V) (i : Nat) : Nat → Option (Map K V)
  | 0 => none
  | fuel + 1 =>
    let r := getSlot m i
    if r.set then
      if r.psl < e.psl then
        let m1 := updateMaxStatsOnInsert { m with elements := m.elements.set i e } e.psl
        let m2 := { m1 with totalPsl := m1.totalPsl + (e.psl - r.psl) }
        insertLoop m2 { r with psl := r.psl + 1 } ((i + 1) % m2.size) fuel
      else
        insertLoop m { e with psl := e.psl + 1 } ((i + 1) % m.size) fuel
    else
      let m1 := updateMaxStatsOnInsert
        { m with elements := m.elements.set i e, numElements := m.numElements + 1 } e.psl
      some { m1 with totalPsl := m1.totalPsl + e.psl }

/-- The method insertKeyValuePair: starts the probe loop at the home
index with a traveling entry of PSL 0. -/
def insertKeyValuePair (m : Map K V) (key : K) (value : V) : Option (Map K V) :=
  insertLoop m ⟨key, value, 0, true⟩ (m.hash key % m.size) m.size

/-- The method rehashTable: doubles size, zeroes numElements, totalPsl,
maxPsl and maxFreq, allocates a fresh slot array, and re-inserts every
entry of the old array in array order.  The Go range loop has no
elem.set check, so empty slots are re-inserted too, as zero-valued
elements. -/
def rehashTable (m : Map K V) : Option (Map K V) :=
  let oldElems := m.elements
  let m0 : Map K V :=
    { m with size := m.size * 2,
             elements := List.replicate (m.size * 2) zeroElem,
             numElements := 0, totalPsl := 0, maxPsl := 0, maxFreq := 0 }
  oldElems.foldlM (fun acc e => insertKeyValuePair acc e.key e.value) m0

/-- The load check of Set:
float32(float64(m.numElements) / float64(m.size)) >= m.loadFactor with
loadFactor = 0.9, modelled as the exact rational comparison
numElements / size ≥ 9 / 10.  The float computation agrees with the
rational one at every size this development evaluates; the two can only
differ when size exceeds roughly 2 ^ 25, where a double quotient adjacent
to 0.9 can round across the float32 value of 0.9. -/
def loadCheck (m : Map K V) : Bool := 9 * m.size ≤ 10 * m.numElements

/-- The method Set: the load-factor check (and the possible rehash) runs
first, then the presence check via GetWithIndex on the possibly rehashed
table, then either the overwrite of the value in place or the fresh
insertion.  A none result propagates the table-full non-termination of
the insert loop. -/
def Set (m : Map K V) (key : K) (value : V) : Option (Map K V) :=
  let step := fun (m1 : Map K V) =>
    let r := GetWithIndex m1 key
    if r.2.1 then
      let e := getSlot m1 r.2.2
      some { m1 with elements := m1.elements.set r.2.2 { e with value := value } }
    else insertKeyValuePair m1 key value
  if loadCheck m then (rehashTable m).bind step else step m

/-- Sum of the stored PSLs of a slot array: the termination measure of
the backward-shift loop of Delete (each iteration decrements one stored
PSL by exactly one). -/
def pslSum (l : List (Elem K V)) : Nat := (l.map (fun e => e.psl)).sum

/-- Body of the backward-shift loop of Delete: the max-stat check on
m.elements[i] (the slot the previous iteration cleared), then
m.elements[j].psl-- (guarded by the loop condition, so Nat subtraction is
exact), m.totalPsl-- (an unguarded uint64 decrement, wrapping), the move
of slot j into slot i, and the clearing of slot j. -/
def shiftStep (m : Map K V) (i j : Nat) : Map K V :=
  let m1 := if (getSlot m i).psl = m.maxPsl then updateMaxStatsOnDelete m else m
  let ej := { getSlot m1 j with psl := (getSlot m1 j).psl - 1 }
  { m1 with elements := ((m1.elements.set j ej).set i ej).set j zeroElem,
            totalPsl := (m1.totalPsl + (2 ^ 64 - 1)) % 2 ^ 64 }

/-- The backward-shift loop of Delete (in Go:
for j := (i+1) % m.size; m.elements[j].set && m.elements[j].psl > 0;
i, j = (i+1) % m.size, (j+1) % m.size).  Every iteration decrements the
stored PSL of slot j, so the sum of stored PSLs strictly decreases and
the Go loop always terminates; `fuel` makes the recursion structural so
that the kernel can evaluate it, and Delete passes
fuel = pslSum m.elements + 1, which the theorems pslSum_shiftStep_lt and
shiftLoop_fuel_irrelevant below show the loop can never exhaust. -/
def shiftLoop (m : Map K V) (i j : Nat) : Nat → Map K V
  | 0 => m
  | fuel + 1 =>
    let ej := getSlot m j
    if ej.set = true ∧ 0 < ej.psl then
      shiftLoop (shiftStep m i j) ((i + 1) % m.size) ((j + 1) % m.size) fuel
    else m

/-- The method Delete: empty-table early return, lookup via GetWithIndex,
the totalPsl and numElements updates (totalPsl -= uint64(psl) is an
unguarded uint64 subtraction, modelled with its wraparound; the
numElements decrement is guarded by the empty-table return), the max-stat
branches, the clearing of the found slot, and the backward-shift loop. -/
def Delete (m : Map K V) (key : K) : Map K V :=
  if m.numElements = 0 then m
  else
    let r := GetWithIndex m key
    if r.2.1 then
      let i := r.2.2
      let e := getSlot m i
      let m1 := { m with
        totalPsl := (m.totalPsl + (2 ^ 64 - e.psl % 2 ^ 64)) % 2 ^ 64,
        numElements := m.numElements - 1 }
      let m2 :=
        if m1.numElements = 0 then { m1 with maxFreq := 0, maxPsl := 0 }
        else if e.psl = m1.maxPsl then updateMaxStatsOnDelete m1 else m1
      let m3 := { m2 with elements := m2.elements.set i zeroElem }
      shiftLoop m3 i ((i + 1) % m3.size) (pslSum m3.elements + 1)
    else m

/-- The method Len. -/
def Len (m : Map K V) : Nat := m.numElements

/-- The method GetWithIndex as a state transformer: a Go method takes the
receiver by pointer, so an operation maps the receiver state to a pair of
out-state and return value.  The body of GetWithIndex contains no
assignment to any field of the receiver, so its out-state is the
unchanged receiver. -/
def GetWithIndexOp (m : Map K V) (key : K) : Map K V × (V × Bool × Nat) :=
  (m, GetWithIndex m key)

/-- The method Get as a state transformer: it calls GetWithIndex on the
receiver and projects the returned triple, leaving the receiver exactly
as GetWithIndex left it. -/
def GetOp (m : Map K V) (key : K) : Map K V × (V × Bool) :=
  let s := GetWithIndexOp m key
  (s.1, (s.2.1, s.2.2.1))

/-- The method Len as a state transformer: it reads numElements and
writes nothing. -/
def LenOp (m : Map K V) : Map K V × Nat := (m, Len m)

/-- The in-place overwrite Set performs when the presence check finds
the key at slot i: only the value field of that slot changes. -/
def overwriteValue (m : Map K V) (i : Nat) (v : V) : Map K V :=
  { m with elements := m.elements.set i ({ getSlot m i with value := v }) }

/-- The empty doubled table rehashTable starts from (its local m0),
named so that proofs can speak about it. -/
def freshDoubled (m : Map K V) : Map K V :=
  { m with size := m.size * 2,
           elements := List.replicate (m.size * 2) zeroElem,
           numElements := 0, totalPsl := 0, maxPsl := 0, maxFreq := 0 }

/-- Home index of a key: hash(key) mod capacity. -/
def home (m : Map K V) (key : K) : Nat := m.hash key % m.size

/-- Slot i of the table is occupied. -/
def occ (m : Map K V) (i : Nat) : Prop := (getSlot m i).set = true

/-- Number of occupied slots of a slot array. -/
def countSet (l : List (Elem K V)) : Nat := (l.filter (fun e => e.set)).length

/-- Number of occupied slots of a slot array holding a given key. -/
def countKey (l : List (Elem K V)) (k : K) : Nat :=
  (l.filter (fun e => e.set && decide (e.key = k))).length

/-- PSL correctness, as the specification states it: every occupied slot
at index i holding key k stores psl = (i - hash(k) mod capacity) mod
capacity; with Nat arithmetic the subtraction is written
(i + capacity - home) % capacity, which agrees with the integer formula
whenever i < capacity. -/
def PslOk (m : Map K V) : Prop :=
  ∀ i, i < m.size → occ m i →
    (getSlot m i).psl = (i + m.size - home m (getSlot m i).key) % m.size

/-- Cluster contiguity: the whole probe path of an occupied slot, from
its home index up to but excluding the slot itself, is occupied. -/
def Contig (m : Map K V) : Prop :=
  ∀ i, i < m.size → occ m i →
    ∀ t, t < (getSlot m i).psl → occ m ((home m (getSlot m i).key + t) % m.size)

/-- Robin-Hood adjacency: an occupied slot directly following an occupied
slot stores a PSL at most one larger. -/
def Adj (m : Map K V) : Prop :=
  ∀ i, i < m.size → occ m i → occ m ((i + 1) % m.size) →
    (getSlot m ((i + 1) % m.size)).psl ≤ (getSlot m i).psl + 1

/-- The structural invariant of a reachable table: well-sized slot array,
accurate element count, PSL correctness, cluster contiguity and
Robin-Hood adjacency.  New establishes it and every operation preserves
it. -/
def Inv (m : Map K V) : Prop :=
  m.elements.length = m.size ∧ 0 < m.size ∧ countSet m.elements = m.numElements ∧
  PslOk m ∧ Contig m ∧ Adj m

/-- The true maximum stored PSL over the occupied slots of a slot array
(what the spec says the maxPsl statistic equals). -/
def trueMaxPsl (l : List (Elem K V)) : Nat :=
  ((l.filter (fun e => e.set)).map (fun e => e.psl)).foldr max 0

/-- Folds a list of Set calls over a table, propagating the table-full
marker of the insert loop. -/
def runSets (m : Map K V) (ops : List (K × V)) : Option (Map K V) :=
  ops.foldlM (fun acc kv => Set acc kv.1 kv.2) m

/-- A concrete hasher for the test tables: key 0 hashes to 9, every
other key to itself.  The spec treats the keyed hasher as an arbitrary
deterministic external collaborator, so any such function is a
legitimate instantiation. -/
def hashA : Nat → Nat := fun k => if k = 0 then 9 else k

/-- Nine Set calls with distinct keys 0..8 (key 0 most recently set to
100).  On a table of capacity 10 they occupy slots 1..9, leaving slot 0
empty, and never trigger a resize (all loads checked are at most 8/10). -/
def opsA : List (Nat × Nat) :=
  [(0, 100), (1, 101), (2, 102), (3, 103), (4, 104), (5, 105), (6, 106), (7, 107), (8, 108)]

/-- The table of capacity 10 holding the nine pairs of opsA. -/
def tblA : Option (Map Nat Nat) := runSets (New hashA [10]) opsA

/-- tblA after one more Set of a fresh key: the load check 9/10 ≥ 0.9
fires, so this Set resizes (re-inserting all ten old slots, the empty
slot 0 included) and then inserts key 9. -/
def tblB : Option (Map Nat Nat) := tblA.bind (fun m => Set m 9 200)

/-- A constant hasher: every key has home index 0. -/
def hashC : Nat → Nat := fun _ => 0

/-- A default-capacity table holding three keys that all hash to home 0,
forming one cluster with PSLs 0, 1, 2 in slots 0, 1, 2. -/
def tblC : Option (Map Nat Nat) := runSets (New hashC []) [(10, 1), (11, 2), (12, 3)]

/-- The table inside tblC (tblC is in fact some of this map). -/
def tblC0 : Map Nat Nat := tblC.getD (New hashC [])

/-!
Explicit literals for every intermediate state of the concrete runs: the
theorems below prove each single public operation maps one literal to
the next, and chain those steps, so that no proof has to normalize a
whole run at once.
-/

def tA0 : Map Nat Nat :=
  { hash := hashA, numElements := 0,
    elements := [zeroElem, zeroElem, zeroElem, zeroElem, zeroElem, zeroElem, zeroElem, zeroElem, zeroElem, zeroElem],
    size := 10, totalPsl := 0, maxPsl := 0, maxFreq := 0 }

def tA1 : Map Nat Nat :=
  { hash := hashA, numElements := 1,
    elements := [zeroElem, zeroElem, zeroElem, zeroElem, zeroElem, zeroElem, zeroElem, zeroElem, zeroElem, ⟨0, 100, 0, true⟩],
    size := 10, totalPsl := 0, maxPsl := 0, maxFreq := 1 }

def tA2 : Map Nat Nat :=
  { hash := hashA, numElements := 2,
    elements := [zeroElem, ⟨1, 101, 0, true⟩, zeroElem, zeroElem, zeroElem, zeroElem, zeroElem, zeroElem, zeroElem, ⟨0, 100, 0, true⟩],
    size := 10, totalPsl := 0, maxPsl := 0, maxFreq := 2 }

def tA3 : Map Nat Nat :=
  { hash := hashA, numElements := 3,
    elements := [zeroElem, ⟨1, 101, 0, true⟩, ⟨2, 102, 0, true⟩, zeroElem, zeroElem, zeroElem, zeroElem, zeroElem, zeroElem, ⟨0, 100, 0, true⟩],
    size := 10, totalPsl := 0, maxPsl := 0, maxFreq := 3 }

def tA4 : Map Nat Nat :=
  { hash := hashA, numElements := 4,
    elements := [zeroElem, ⟨1, 101, 0, true⟩, ⟨2, 102, 0, true⟩, ⟨3, 103, 0, true⟩, zeroElem, zeroElem, zeroElem, zeroElem, zeroElem, ⟨0, 100, 0, true⟩],
    size := 10, totalPsl := 0, maxPsl := 0, maxFreq := 4 }

def tA5 : Map Nat Nat :=
  { hash := hashA, numElements := 5,
    elements := [zeroElem, ⟨1, 101, 0, true⟩, ⟨2, 102, 0, true⟩, ⟨3, 103, 0, true⟩, ⟨4, 104, 0, true⟩, zeroElem, zeroElem, zeroElem, zeroElem, ⟨0, 100, 0, true⟩],
    size := 10, totalPsl := 0, maxPsl := 0, maxFreq := 5 }

def tA6 : Map Nat Nat :=
  { hash := hashA, numElements := 6,
    elements := [zeroElem, ⟨1, 101, 0, true⟩, ⟨2, 102, 0, true⟩, ⟨3, 103, 0, true⟩, ⟨4, 104, 0, true⟩, ⟨5, 105, 0, true⟩, zeroElem, zeroElem, zeroElem, ⟨0, 100, 0, true⟩],
    size := 10, totalPsl := 0, maxPsl := 0, maxFreq := 6 }

def tA7 : Map Nat Nat :=
  { hash := hashA, numElements := 7,
    elements := [zeroElem, ⟨1, 101, 0, true⟩, ⟨2, 102, 0, true⟩, ⟨3, 103, 0, true⟩, ⟨4, 104, 0, true⟩, ⟨5, 105, 0, true⟩, ⟨6, 106, 0, true⟩, zeroElem, zeroElem, ⟨0, 100, 0, true⟩],
    size := 10, totalPsl := 0, maxPsl := 0, maxFreq := 7 }

def tA8 : Map Nat Nat :=
  { hash := hashA, numElements := 8,
    elements := [zeroElem, ⟨1, 101, 0, true⟩, ⟨2, 102, 0, true⟩, ⟨3, 103, 0, true⟩, ⟨4, 104, 0, true⟩, ⟨5, 105, 0, true⟩, ⟨6, 106, 0, true⟩, ⟨7, 107, 0, true⟩, zeroElem, ⟨0, 100, 0, true⟩],
    size := 10, totalPsl := 0, maxPsl := 0, maxFreq := 8 }

def tA9 : Map Nat Nat :=
  { hash := hashA, numElements := 9,
    elements := [zeroElem, ⟨1, 101, 0, true⟩, ⟨2, 102, 0, true⟩, ⟨3, 103, 0, true⟩, ⟨4, 104, 0, true⟩, ⟨5, 105, 0, true⟩, ⟨6, 106, 0, true⟩, ⟨7, 107, 0, true⟩, ⟨8, 108, 0, true⟩, ⟨0, 100, 0, true⟩],
    size := 10, totalPsl := 0, maxPsl := 0, maxFreq := 9 }

def tB : Map Nat Nat :=
  { hash := hashA, numElements := 11,
    elements := [zeroElem, ⟨1, 101, 0, true⟩, ⟨2, 102, 0, true⟩, ⟨3, 103, 0, true⟩, ⟨4, 104, 0, true⟩, ⟨5, 105, 0, true⟩, ⟨6, 106, 0, true⟩, ⟨7, 107, 0, true⟩, ⟨8, 108, 0, true⟩, ⟨0, 0, 0, true⟩, ⟨0, 100, 1, true⟩, ⟨9, 200, 2, true⟩, zeroElem, zeroElem, zeroElem, zeroElem, zeroElem, zeroElem, zeroElem, zeroElem],
    size := 20, totalPsl := 3, maxPsl := 2, maxFreq := 1 }

def tARehash : Map Nat Nat :=
  { hash := hashA, numElements := 10,
    elements := [zeroElem, ⟨1, 101, 0, true⟩, ⟨2, 102, 0, true⟩, ⟨3, 103, 0, true⟩, ⟨4, 104, 0, true⟩, ⟨5, 105, 0, true⟩, ⟨6, 106, 0, true⟩, ⟨7, 107, 0, true⟩, ⟨8, 108, 0, true⟩, ⟨0, 0, 0, true⟩, ⟨0, 100, 1, true⟩, zeroElem, zeroElem, zeroElem, zeroElem, zeroElem, zeroElem, zeroElem, zeroElem, zeroElem],
    size := 20, totalPsl := 1, maxPsl := 1, maxFreq := 1 }

def tASet555 : Map Nat Nat :=
  { hash := hashA, numElements := 10,
    elements := [zeroElem, ⟨1, 101, 0, true⟩, ⟨2, 102, 0, true⟩, ⟨3, 103, 0, true⟩, ⟨4, 104, 0, true⟩, ⟨5, 105, 0, true⟩, ⟨6, 106, 0, true⟩, ⟨7, 107, 0, true⟩, ⟨8, 108, 0, true⟩, ⟨0, 555, 0, true⟩, ⟨0, 100, 1, true⟩, zeroElem, zeroElem, zeroElem, zeroElem, zeroElem, zeroElem, zeroElem, zeroElem, zeroElem],
    size := 20, totalPsl := 1, maxPsl := 1, maxFreq := 1 }

def tBDel1 : Map Nat Nat :=
  { hash := hashA, numElements := 10,
    elements := [zeroElem, ⟨1, 101, 0, true⟩, ⟨2, 102, 0, true⟩, ⟨3, 103, 0, true⟩, ⟨4, 104, 0, true⟩, ⟨5, 105, 0, true⟩, ⟨6, 106, 0, true⟩, ⟨7, 107, 0, true⟩, ⟨8, 108, 0, true⟩, ⟨0, 100, 0, true⟩, ⟨9, 200, 1, true⟩, zeroElem, zeroElem, zeroElem, zeroElem, zeroElem, zeroElem, zeroElem, zeroElem, zeroElem],
    size := 20, totalPsl := 1, maxPsl := 2, maxFreq := 1 }

def tBDel2 : Map Nat Nat :=
  { hash := hashA, numElements := 9,
    elements := [zeroElem, ⟨1, 101, 0, true⟩, ⟨2, 102, 0, true⟩, ⟨3, 103, 0, true⟩, ⟨4, 104, 0, true⟩, ⟨5, 105, 0, true⟩, ⟨6, 106, 0, true⟩, ⟨7, 107, 0, true⟩, ⟨8, 108, 0, true⟩, ⟨9, 200, 0, true⟩, zeroElem, zeroElem, zeroElem, zeroElem, zeroElem, zeroElem, zeroElem, zeroElem, zeroElem, zeroElem],
    size := 20, totalPsl := 0, maxPsl := 2, maxFreq := 1 }

def tC0 : Map Nat Nat :=
  { hash := hashC, numElements := 0,
    elements := [zeroElem, zeroElem, zeroElem, zeroElem, zeroElem, zeroElem, zeroElem, zeroElem],
    size := 8, totalPsl := 0, maxPsl := 0, maxFreq := 0 }

def tC1 : Map Nat Nat :=
  { hash := hashC, numElements := 1,
    elements := [⟨10, 1, 0, true⟩, zeroElem, zeroElem, zeroElem, zeroElem, zeroElem, zeroElem, zeroElem],
    size := 8, totalPsl := 0, maxPsl := 0, maxFreq := 1 }

def tC2 : Map Nat Nat :=
  { hash := hashC, numElements := 2,
    elements := [⟨10, 1, 0, true⟩, ⟨11, 2, 1, true⟩, zeroElem, zeroElem, zeroElem, zeroElem, zeroElem, zeroElem],
    size := 8, totalPsl := 1, maxPsl := 1, maxFreq := 1 }

def tC3 : Map Nat Nat :=
  { hash := hashC, numElements := 3,
    elements := [⟨10, 1, 0, true⟩, ⟨11, 2, 1, true⟩, ⟨12, 3, 2, true⟩, zeroElem, zeroElem, zeroElem, zeroElem, zeroElem],
    size := 8, totalPsl := 3, maxPsl := 2, maxFreq := 1 }

def tCDel : Map Nat Nat :=
  { hash := hashC, numElements := 2,
    elements := [⟨11, 2, 0, true⟩, ⟨12, 3, 1, true⟩, zeroElem, zeroElem, zeroElem, zeroElem, zeroElem, zeroElem],
    size := 8, totalPsl := 1, maxPsl := 2, maxFreq := 1 }


/-!
Intermediate states of the rehash of tA9: rehashTable folds
insertKeyValuePair over all ten old slots (the empty slot 0 first, which
inserts the phantom (0, 0) entry at home index 9), and each rI below is
the state after I of those inserts; the state after all ten is tARehash.
-/


def r0 : Map Nat Nat :=
  { hash := hashA, numElements := 0,
    elements := [zeroElem, zeroElem, zeroElem, zeroElem, zeroElem, zeroElem, zeroElem, zeroElem, zeroElem, zeroElem, zeroElem, zeroElem, zeroElem, zeroElem, zeroElem, zeroElem, zeroElem, zeroElem, zeroElem, zeroElem],
    size := 20, totalPsl := 0, maxPsl := 0, maxFreq := 0 }

def r1 : Map Nat Nat :=
  { hash := hashA, numElements := 1,
    elements := [zeroElem, zeroElem, zeroElem, zeroElem, zeroElem, zeroElem, zeroElem, zeroElem, zeroElem, ⟨0, 0, 0, true⟩, zeroElem, zeroElem, zeroElem, zeroElem, zeroElem, zeroElem, zeroElem, zeroElem, zeroElem, zeroElem],
    size := 20, totalPsl := 0, maxPsl := 0, maxFreq := 1 }

def r2 : Map Nat Nat :=
  { hash := hashA, numElements := 2,
    elements := [zeroElem, ⟨1, 101, 0, true⟩, zeroElem, zeroElem, zeroElem, zeroElem, zeroElem, zeroElem, zeroElem, ⟨0, 0, 0, true⟩, zeroElem, zeroElem, zeroElem, zeroElem, zeroElem, zeroElem, zeroElem, zeroElem, zeroElem, zeroElem],
    size := 20, totalPsl := 0, maxPsl := 0, maxFreq := 2 }

def r3 : Map Nat Nat :=
  { hash := hashA, numElements := 3,
    elements := [zeroElem, ⟨1, 101, 0, true⟩, ⟨2, 102, 0, true⟩, zeroElem, zeroElem, zeroElem, zeroElem, zeroElem, zeroElem, ⟨0, 0, 0, true⟩, zeroElem, zeroElem, zeroElem, zeroElem, zeroElem, zeroElem, zeroElem, zeroElem, zeroElem, zeroElem],
    size := 20, totalPsl := 0, maxPsl := 0, maxFreq := 3 }

def r4 : Map Nat Nat :=
  { hash := hashA, numElements := 4,
    elements := [zeroElem, ⟨1, 101, 0, true⟩, ⟨2, 102, 0, true⟩, ⟨3, 103, 0, true⟩, zeroElem, zeroElem, zeroElem, zeroElem, zeroElem, ⟨0, 0, 0, true⟩, zeroElem, zeroElem, zeroElem, zeroElem, zeroElem, zeroElem, zeroElem, zeroElem, zeroElem, zeroElem],
    size := 20, totalPsl := 0, maxPsl := 0, maxFreq := 4 }

def r5 : Map Nat Nat :=
  { hash := hashA, numElements := 5,
    elements := [zeroElem, ⟨1, 101, 0, true⟩, ⟨2, 102, 0, true⟩, ⟨3, 103, 0, true⟩, ⟨4, 104, 0, true⟩, zeroElem, zeroElem, zeroElem, zeroElem, ⟨0, 0, 0, true⟩, zeroElem, zeroElem, zeroElem, zeroElem, zeroElem, zeroElem, zeroElem, zeroElem, zeroElem, zeroElem],
    size := 20, totalPsl := 0, maxPsl := 0, maxFreq := 5 }

def r6 : Map Nat Nat :=
  { hash := hashA, numElements := 6,
    elements := [zeroElem, ⟨1, 101, 0, true⟩, ⟨2, 102, 0, true⟩, ⟨3, 103, 0, true⟩, ⟨4, 104, 0, true⟩, ⟨5, 105, 0, true⟩, zeroElem, zeroElem, zeroElem, ⟨0, 0, 0, true⟩, zeroElem, zeroElem, zeroElem, zeroElem, zeroElem, zeroElem, zeroElem, zeroElem, zeroElem, zeroElem],
    size := 20, totalPsl := 0, maxPsl := 0, maxFreq := 6 }

def r7 : Map Nat Nat :=
  { hash := hashA, numElements := 7,
    elements := [zeroElem, ⟨1, 101, 0, true⟩, ⟨2, 102, 0, true⟩, ⟨3, 103, 0, true⟩, ⟨4, 104, 0, true⟩, ⟨5, 105, 0, true⟩, ⟨6, 106, 0, true⟩, zeroElem, zeroElem, ⟨0, 0, 0, true⟩, zeroElem, zeroElem, zeroElem, zeroElem, zeroElem, zeroElem, zeroElem, zeroElem, zeroElem, zeroElem],
    size := 20, totalPsl := 0, maxPsl := 0, maxFreq := 7 }

def r8 : Map Nat Nat :=
  { hash := hashA, numElements := 8,
    elements := [zeroElem, ⟨1, 101, 0, true⟩, ⟨2, 102, 0, true⟩, ⟨3, 103, 0, true⟩, ⟨4, 104, 0, true⟩, ⟨5, 105, 0, true⟩, ⟨6, 106, 0, true⟩, ⟨7, 107, 0, true⟩, zeroElem, ⟨0, 0, 0, true⟩, zeroElem, zeroElem, zeroElem, zeroElem, zeroElem, zeroElem, zeroElem, zeroElem, zeroElem, zeroElem],
    size := 20, totalPsl := 0, maxPsl := 0, maxFreq := 8 }

def r9 : Map Nat Nat :=
  { hash := hashA, numElements := 9,
    elements := [zeroElem, ⟨1, 101, 0, true⟩, ⟨2, 102, 0, true⟩, ⟨3, 103, 0, true⟩, ⟨4, 104, 0, true⟩, ⟨5, 105, 0, true⟩, ⟨6, 106, 0, true⟩, ⟨7, 107, 0, true⟩, ⟨8, 108, 0, true⟩, ⟨0, 0, 0, true⟩, zeroElem, zeroElem, zeroElem, zeroElem, zeroElem, zeroElem, zeroElem, zeroElem, zeroElem, zeroElem],
    size := 20, totalPsl := 0, maxPsl := 0, maxFreq := 9 }

theorem stepA1 : Set tA0 0 100 = some tA1 := by rfl

theorem stepA2 : Set tA1 1 101 = some tA2 := by rfl

theorem stepA3 : Set tA2 2 102 = some tA3 := by rfl

theorem stepA4 : Set tA3 3 103 = some tA4 := by rfl

theorem stepA5 : Set tA4 4 104 = some tA5 := by rfl

theorem stepA6 : Set tA5 5 105 = some tA6 := by rfl

theorem stepA7 : Set tA6 6 106 = some tA7 := by rfl

theorem stepA8 : Set tA7 7 107 = some tA8 := by rfl

theorem stepA9 : Set tA8 8 108 = some tA9 := by rfl

theorem stepR0 : insertKeyValuePair r0 0 0 = some r1 := by rfl

theorem stepR1 : insertKeyValuePair r1 1 101 = some r2 := by rfl

theorem stepR2 : insertKeyValuePair r2 2 102 = some r3 := by rfl

theorem stepR3 : insertKeyValuePair r3 3 103 = some r4 := by rfl

theorem stepR4 : insertKeyValuePair r4 4 104 = some r5 := by rfl

theorem stepR5 : insertKeyValuePair r5 5 105 = some r6 := by rfl

theorem stepR6 : insertKeyValuePair r6 6 106 = some r7 := by rfl

theorem stepR7 : insertKeyValuePair r7 7 107 = some r8 := by rfl

theorem stepR8 : insertKeyValuePair r8 8 108 = some r9 := by rfl

theorem stepR9 : insertKeyValuePair r9 0 100 = some tARehash := by rfl

theorem elements_tA9 :
    tA9.elements = [⟨0, 0, 0, false⟩, ⟨1, 101, 0, true⟩, ⟨2, 102, 0, true⟩,
      ⟨3, 103, 0, true⟩, ⟨4, 104, 0, true⟩, ⟨5, 105, 0, true⟩, ⟨6, 106, 0, true⟩,
      ⟨7, 107, 0, true⟩, ⟨8, 108, 0, true⟩, ⟨0, 100, 0, true⟩] := by rfl

theorem stepRehash : rehashTable tA9 = some tARehash := by
  have h0 : rehashTable tA9 =
      List.foldlM (fun acc e => insertKeyValuePair acc e.key e.value) r0 tA9.elements := by
    rfl
  rw [h0, elements_tA9]
  simp only [List.foldlM_cons, List.foldlM_nil, Option.bind_eq_bind, Option.some_bind, pure,
    stepR0, stepR1, stepR2, stepR3, stepR4, stepR5, stepR6, stepR7, stepR8, stepR9]

theorem stepB : Set tA9 9 200 = some tB := by
  have h0 : Set tA9 9 200 = (rehashTable tA9).bind
      (fun m1 =>
        let r := GetWithIndex m1 9
        if r.2.1 then
          some { m1 with elements := m1.elements.set r.2.2 { getSlot m1 r.2.2 with value := 200 } }
        else insertKeyValuePair m1 9 200) := by rfl
  rw [h0, stepRehash]
  rfl

theorem stepSet555 : Set tA9 0 555 = some tASet555 := by
  have h0 : Set tA9 0 555 = (rehashTable tA9).bind
      (fun m1 =>
        let r := GetWithIndex m1 0
        if r.2.1 then
          some { m1 with elements := m1.elements.set r.2.2 { getSlot m1 r.2.2 with value := 555 } }
        else insertKeyValuePair m1 0 555) := by rfl
  rw [h0, stepRehash]
  rfl

theorem stepDel1 : Delete tB 0 = tBDel1 := by rfl

theorem stepDel2 : Delete tBDel1 0 = tBDel2 := by rfl

theorem stepC1 : Set tC0 10 1 = some tC1 := by rfl

theorem stepC2 : Set tC1 11 2 = some tC2 := by rfl

theorem stepC3 : Set tC2 12 3 = some tC3 := by rfl

theorem stepCDel : Delete tC3 10 = tCDel := by rfl

theorem newA_eq : (New hashA [10] : Map Nat Nat) = tA0 := by rfl

theorem newC_eq : (New hashC [] : Map Nat Nat) = tC0 := by rfl

theorem tblA_eq : tblA = some tA9 := by
  simp only [tblA, runSets, opsA, newA_eq, List.foldlM_cons, List.foldlM_nil,
    stepA1, stepA2, stepA3, stepA4, stepA5, stepA6, stepA7, stepA8, stepA9,
    Option.bind_eq_bind, Option.some_bind, pure]

theorem tblB_eq : tblB = some tB := by
  simp only [tblB, tblA_eq, Option.some_bind, stepB]

theorem tblC_eq : tblC = some tC3 := by
  simp only [tblC, runSets, newC_eq, List.foldlM_cons, List.foldlM_nil,
    stepC1, stepC2, stepC3, Option.bind_eq_bind, Option.some_bind, pure]

/-- C1: the claim fails on the code.  All operations are Set calls: the
nine Sets of opsA (the most recent value set for key 0 being 100) and a
Set of the fresh key 9, which triggers the resize.  The resize
re-inserts the empty slot 0 of the old array as a phantom (key 0,
value 0) entry at home index 9 with PSL 0, in front of the genuine
(0, 100) entry, and the subsequent Get 0 finds the phantom first and
returns value 0, not the most recently set 100. -/
theorem get_returns_stale_value_after_resize :
    tblA.map (fun m => Get m 0) = some (100, true) ∧
    tblB.map (fun m => Get m 0) = some (0, true) := by
  rw [tblA_eq, tblB_eq]
  exact ⟨by rfl, by rfl⟩

/-- C2: the claim fails on the code.  tblA holds nine pairs in a table
of capacity 10 (Len 9, the pair (0, 100) retrievable).  rehashTable
re-inserts all ten old slots, the empty one included, so immediately
after the resize Len is 10, not 9, and Get 0 returns the phantom value 0
instead of the pair (0, 100) that was present before the resize. -/
theorem rehash_changes_len_and_contents :
    tblA.map (fun m => (Len m, Get m 0)) = some (9, 100, true) ∧
    (tblA.bind rehashTable).map (fun m => (Len m, Get m 0)) = some (10, 0, true) := by
  rw [tblA_eq]
  refine ⟨by rfl, ?_⟩
  simp only [Option.some_bind, stepRehash]
  rfl

/-- C3: the claim fails on the code.  Three keys with a common home
index form a cluster with PSLs 0, 1, 2 (maxPsl = 2, maxFreq = 1);
deleting the PSL-0 entry backward-shifts the other two to PSLs 0 and 1,
so the true maximum PSL becomes 1, but the loop checks the just-cleared
slot i instead of the shifted entry j, the adjustment never fires, and
the maxPsl statistic stays 2. -/
theorem maxPsl_stale_after_backward_shift :
    tblC.map (fun m => (m.maxPsl, m.maxFreq)) = some (2, 1) ∧
    (tblC.map (fun m => Delete m 10)).map
      (fun m => (m.maxPsl, trueMaxPsl m.elements)) = some (2, 1) := by
  rw [tblC_eq]
  refine ⟨by rfl, ?_⟩
  simp only [Option.map_some', stepCDel]
  rfl

/-- C4: the claim fails on the code.  After the pure-Set sequence that
builds tblB, two distinct occupied slots hold key 0: the phantom entry
the resize inserted for the empty old slot, and the genuine (0, 100)
entry. -/
theorem duplicate_key_after_resize :
    tblB.map (fun m => countKey m.elements 0) = some 2 := by
  rw [tblB_eq]; rfl

/-- C5, counterexample: a Set of the already-present key 0 on tblA
(9 elements, capacity 10, load 0.9) performs the resize first, so Len
grows from 9 to 10 and the capacity doubles from 10 to 20 even though
the key was present. -/
theorem set_of_present_key_resizes :
    tblA.map (fun m => ((Get m 0).2, Len m, m.size)) = some (true, 9, 10) ∧
    (tblA.bind (fun m => Set m 0 555)).map (fun m => (Len m, m.size)) =
      some (10, 20) := by
  rw [tblA_eq]
  refine ⟨by rfl, ?_⟩
  simp only [Option.some_bind, stepSet555]
  rfl

/-- C6: the claim fails on the code.  In tblB (reachable by Set calls
alone) key 0 occupies two slots, so the first Delete 0 removes only one
of them: Get 0 still returns found = true afterwards, and the second
Delete 0 removes the other copy, changing the table (Len drops from 10
to 9), so the second call is not a no-op. -/
theorem delete_twice_not_idempotent :
    tblB.map
      (fun m => (Len (Delete m 0), (Get (Delete m 0) 0).2,
                 Len (Delete (Delete m 0) 0))) = some (10, true, 9) := by
  rw [tblB_eq]
  simp only [Option.map_some', stepDel1, stepDel2]
  rfl

/-!
Shared helper lemmas: list indexing and updating, projections of the
stat-updating helpers, and modular index arithmetic.
-/

theorem getD_set_self {α : Type} (l : List α) (n : Nat) (e d : α) (h : n < l.length) :
    (l.set n e).getD n d = e := by
  rw [List.getD_eq_getElem _ _ (by simpa using h)]
  exact List.getElem_set_self _

theorem getD_set_ne {α : Type} (l : List α) (a b : Nat) (e d : α) (h : a ≠ b) :
    (l.set a e).getD b d = l.getD b d := by
  rcases Nat.lt_or_ge b l.length with hb | hb
  · rw [List.getD_eq_getElem _ _ (by simpa using hb), List.getD_eq_getElem _ _ hb]
    exact List.getElem_set_ne h ..
  · rw [List.getD_eq_default _ _ (by simpa using hb), List.getD_eq_default _ _ hb]

theorem elements_updateMaxStatsOnInsert (m : Map K V) (p : Nat) :
    (updateMaxStatsOnInsert m p).elements = m.elements := by
  unfold updateMaxStatsOnInsert; split
  · rfl
  · split <;> rfl

theorem size_updateMaxStatsOnInsert (m : Map K V) (p : Nat) :
    (updateMaxStatsOnInsert m p).size = m.size := by
  unfold updateMaxStatsOnInsert; split
  · rfl
  · split <;> rfl

theorem numElements_updateMaxStatsOnInsert (m : Map K V) (p : Nat) :
    (updateMaxStatsOnInsert m p).numElements = m.numElements := by
  unfold updateMaxStatsOnInsert; split
  · rfl
  · split <;> rfl

theorem hash_updateMaxStatsOnInsert (m : Map K V) (p : Nat) :
    (updateMaxStatsOnInsert m p).hash = m.hash := by
  unfold updateMaxStatsOnInsert; split
  · rfl
  · split <;> rfl

theorem elements_updateMaxStatsOnDelete (m : Map K V) :
    (updateMaxStatsOnDelete m).elements = m.elements := by
  unfold updateMaxStatsOnDelete; split <;> rfl

theorem size_updateMaxStatsOnDelete (m : Map K V) :
    (updateMaxStatsOnDelete m).size = m.size := by
  unfold updateMaxStatsOnDelete; split <;> rfl

theorem numElements_updateMaxStatsOnDelete (m : Map K V) :
    (updateMaxStatsOnDelete m).numElements = m.numElements := by
  unfold updateMaxStatsOnDelete; split <;> rfl

theorem hash_updateMaxStatsOnDelete (m : Map K V) :
    (updateMaxStatsOnDelete m).hash = m.hash := by
  unfold updateMaxStatsOnDelete; split <;> rfl

theorem mod_add_offset {n a b : Nat} (ha : a < n) (hb : b < n) :
    (a + (b + n - a) % n) % n = b := by
  rw [Nat.add_mod_mod]
  have h1 : a + (b + n - a) = b + n := by omega
  rw [h1, Nat.add_mod_right]
  exact Nat.mod_eq_of_lt hb

/-- C5 (amended): Set runs the load-factor check before the presence
check, so even a Set of an already-present key performs a resize when
the load is at or above the threshold; when the load check does not
fire, a Set of a present key only overwrites the value in that slot,
and Len, the capacity, and every other field are unchanged. -/
theorem set_present_key_no_resize_overwrites_in_place (m : Map K V) (k : K) (v : V)
    (hload : loadCheck m = false)
    (hfound : (GetWithIndex m k).2.1 = true) :
    Set m k v = some (overwriteValue m (GetWithIndex m k).2.2 v) ∧
    (Set m k v).map Len = some (Len m) ∧
    (Set m k v).map (fun m2 => m2.size) = some m.size := by
  have h1 : Set m k v = some (overwriteValue m (GetWithIndex m k).2.2 v) := by
    simp only [Set, hload, Bool.false_eq_true, if_false, hfound, if_true, overwriteValue]
  exact ⟨h1, by rw [h1]; rfl, by rw [h1]; rfl⟩

/-- Concrete instantiation of the amended C5 theorem: on the reachable
3-element cluster table tC3 (load 3/8) the key 11 is present, and a Set
of it leaves Len and capacity unchanged, only overwriting the value. -/
theorem set_present_key_no_resize_witness :
    loadCheck tC3 = false ∧ (GetWithIndex tC3 11).2.1 = true ∧
    (Set tC3 11 99 = some (overwriteValue tC3 (GetWithIndex tC3 11).2.2 99) ∧
    (Set tC3 11 99).map Len = some (Len tC3) ∧
    (Set tC3 11 99).map (fun m2 => m2.size) = some tC3.size) :=
  ⟨by rfl, by rfl, set_present_key_no_resize_overwrites_in_place tC3 11 99 (by rfl) (by rfl)⟩

/-!
Lemmas for the lookup sweep (claim C7): each loop of GetWithIndex finds
a matching slot anywhere in the range of probe offsets it scans, and a
positive result always points at an occupied slot holding the key.
-/

theorem downScan_finds (m : Map K V) (key : K) :
    ∀ d p, p ≤ d →
      (getSlot m (getIndexOfKeyAtPsl m key p)).set = true →
      (getSlot m (getIndexOfKeyAtPsl m key p)).key = key →
      (downScan m key d).2.1 = true := by
  intro d
  induction d with
  | zero =>
    intro p hp hs hk
    have hp0 : p = 0 := Nat.le_zero.mp hp
    subst hp0
    simp only [downScan]
    rw [if_pos ⟨hs, hk⟩]
  | succ d ih =>
    intro p hp hs hk
    simp only [downScan]
    by_cases hm : (getSlot m (getIndexOfKeyAtPsl m key (d + 1))).set = true ∧
        (getSlot m (getIndexOfKeyAtPsl m key (d + 1))).key = key
    · rw [if_pos hm]
    · rw [if_neg hm]
      rcases Nat.lt_or_ge p (d + 1) with hlt | hge
      · exact ih p (by omega) hs hk
      · have hpd : p = d + 1 := by omega
        subst hpd
        exact absurd ⟨hs, hk⟩ hm

theorem downScan_sound (m : Map K V) (key : K) :
    ∀ d, (downScan m key d).2.1 = true →
      (getSlot m (downScan m key d).2.2).set = true ∧
      (getSlot m (downScan m key d).2.2).key = key ∧
      (downScan m key d).1 = (getSlot m (downScan m key d).2.2).value := by
  intro d
  induction d with
  | zero =>
    intro hfound
    simp only [downScan] at hfound ⊢
    by_cases hm : (getSlot m (getIndexOfKeyAtPsl m key 0)).set = true ∧
        (getSlot m (getIndexOfKeyAtPsl m key 0)).key = key
    · rw [if_pos hm] at hfound ⊢
      exact ⟨hm.1, hm.2, rfl⟩
    · rw [if_neg hm] at hfound
      cases hfound
  | succ d ih =>
    intro hfound
    simp only [downScan] at hfound ⊢
    by_cases hm : (getSlot m (getIndexOfKeyAtPsl m key (d + 1))).set = true ∧
        (getSlot m (getIndexOfKeyAtPsl m key (d + 1))).key = key
    · rw [if_pos hm] at hfound ⊢
      exact ⟨hm.1, hm.2, rfl⟩
    · rw [if_neg hm] at hfound ⊢
      exact ih hfound

theorem upScanAux_finds (m : Map K V) (key : K) :
    ∀ c u p, u ≤ p → p < u + c →
      (getSlot m (getIndexOfKeyAtPsl m key p)).set = true →
      (getSlot m (getIndexOfKeyAtPsl m key p)).key = key →
      (upScanAux m key c u).2.1 = true := by
  intro c
  induction c with
  | zero => intro u p hup hpc _ _; omega
  | succ c ih =>
    intro u p hup hpc hs hk
    simp only [upScanAux]
    by_cases hm : (getSlot m (getIndexOfKeyAtPsl m key u)).set = true ∧
        (getSlot m (getIndexOfKeyAtPsl m key u)).key = key
    · rw [if_pos hm]
    · rw [if_neg hm]
      rcases Nat.lt_or_ge u p with hlt | hge
      · exact ih (u + 1) p (by omega) (by omega) hs hk
      · have hpu : p = u := by omega
        subst hpu
        exact absurd ⟨hs, hk⟩ hm

theorem upScanAux_sound (m : Map K V) (key : K) :
    ∀ c u, (upScanAux m key c u).2.1 = true →
      (getSlot m (upScanAux m key c u).2.2).set = true ∧
      (getSlot m (upScanAux m key c u).2.2).key = key ∧
      (upScanAux m key c u).1 = (getSlot m (upScanAux m key c u).2.2).value := by
  intro c
  induction c with
  | zero => intro u hfound; cases hfound
  | succ c ih =>
    intro u hfound
    simp only [upScanAux] at hfound ⊢
    by_cases hm : (getSlot m (getIndexOfKeyAtPsl m key u)).set = true ∧
        (getSlot m (getIndexOfKeyAtPsl m key u)).key = key
    · rw [if_pos hm] at hfound ⊢
      exact ⟨hm.1, hm.2, rfl⟩
    · rw [if_neg hm] at hfound ⊢
      exact ih (u + 1) hfound

theorem upScan_finds (m : Map K V) (key : K) (u p : Nat)
    (hup : u ≤ p) (hp : p ≤ m.maxPsl)
    (hs : (getSlot m (getIndexOfKeyAtPsl m key p)).set = true)
    (hk : (getSlot m (getIndexOfKeyAtPsl m key p)).key = key) :
    (upScan m key u).2.1 = true := by
  unfold upScan
  exact upScanAux_finds m key (m.maxPsl + 1 - u) u p hup (by omega) hs hk

theorem upScan_sound (m : Map K V) (key : K) (u : Nat)
    (hfound : (upScan m key u).2.1 = true) :
    (getSlot m (upScan m key u).2.2).set = true ∧
    (getSlot m (upScan m key u).2.2).key = key ∧
    (upScan m key u).1 = (getSlot m (upScan m key u).2.2).value := by
  unfold upScan at hfound ⊢
  exact upScanAux_sound m key (m.maxPsl + 1 - u) u hfound

theorem biScan_finds (m : Map K V) (key : K) :
    ∀ d u p, (p ≤ d ∨ (u ≤ p ∧ p ≤ m.maxPsl)) →
      (getSlot m (getIndexOfKeyAtPsl m key p)).set = true →
      (getSlot m (getIndexOfKeyAtPsl m key p)).key = key →
      (biScan m key d u).2.1 = true := by
  intro d
  induction d with
  | zero =>
    intro u p hcov hs hk
    simp only [biScan]
    by_cases hu : u ≤ m.maxPsl
    · rw [if_pos hu]
      by_cases hd : (getSlot m (getIndexOfKeyAtPsl m key 0)).set = true ∧
          (getSlot m (getIndexOfKeyAtPsl m key 0)).key = key
      · rw [if_pos hd]
      · rw [if_neg hd]
        by_cases hum : (getSlot m (getIndexOfKeyAtPsl m key u)).set = true ∧
            (getSlot m (getIndexOfKeyAtPsl m key u)).key = key
        · rw [if_pos hum]
        · rw [if_neg hum]
          rcases hcov with hp0 | ⟨hup, hpm⟩
          · have : p = 0 := by omega
            subst this; exact absurd ⟨hs, hk⟩ hd
          · have hne : p ≠ u := by
              intro h; subst h; exact hum ⟨hs, hk⟩
            exact upScan_finds m key (u + 1) p (by omega) hpm hs hk
    · rw [if_neg hu]
      rcases hcov with hp0 | ⟨hup, hpm⟩
      · exact downScan_finds m key 0 p hp0 hs hk
      · omega
  | succ d ih =>
    intro u p hcov hs hk
    simp only [biScan]
    by_cases hu : u ≤ m.maxPsl
    · rw [if_pos hu]
      by_cases hd : (getSlot m (getIndexOfKeyAtPsl m key (d + 1))).set = true ∧
          (getSlot m (getIndexOfKeyAtPsl m key (d + 1))).key = key
      · rw [if_pos hd]
      · rw [if_neg hd]
        by_cases hum : (getSlot m (getIndexOfKeyAtPsl m key u)).set = true ∧
            (getSlot m (getIndexOfKeyAtPsl m key u)).key = key
        · rw [if_pos hum]
        · rw [if_neg hum]
          refine ih (u + 1) p ?_ hs hk
          rcases hcov with hpd | ⟨hup, hpm⟩
          · have : p ≠ d + 1 := by
              intro h; subst h; exact hd ⟨hs, hk⟩
            exact Or.inl (by omega)
          · have : p ≠ u := by
              intro h; subst h; exact hum ⟨hs, hk⟩
            exact Or.inr ⟨by omega, hpm⟩
    · rw [if_neg hu]
      rcases hcov with hpd | ⟨hup, hpm⟩
      · exact downScan_finds m key (d + 1) p hpd hs hk
      · omega

theorem biScan_sound (m : Map K V) (key : K) :
    ∀ d u, (biScan m key d u).2.1 = true →
      (getSlot m (biScan m key d u).2.2).set = true ∧
      (getSlot m (biScan m key d u).2.2).key = key ∧
      (biScan m key d u).1 = (getSlot m (biScan m key d u).2.2).value := by
  intro d
  induction d with
  | zero =>
    intro u hfound
    simp only [biScan] at hfound ⊢
    by_cases hu : u ≤ m.maxPsl
    · rw [if_pos hu] at hfound ⊢
      by_cases hd : (getSlot m (getIndexOfKeyAtPsl m key 0)).set = true ∧
          (getSlot m (getIndexOfKeyAtPsl m key 0)).key = key
      · rw [if_pos hd] at hfound ⊢
        exact ⟨hd.1, hd.2, rfl⟩
      · rw [if_neg hd] at hfound ⊢
        by_cases hum : (getSlot m (getIndexOfKeyAtPsl m key u)).set = true ∧
            (getSlot m (getIndexOfKeyAtPsl m key u)).key = key
        · rw [if_pos hum] at hfound ⊢
          exact ⟨hum.1, hum.2, rfl⟩
        · rw [if_neg hum] at hfound ⊢
          exact upScan_sound m key (u + 1) hfound
    · rw [if_neg hu] at hfound ⊢
      exact downScan_sound m key 0 hfound
  | succ d ih =>
    intro u hfound
    simp only [biScan] at hfound ⊢
    by_cases hu : u ≤ m.maxPsl
    · rw [if_pos hu] at hfound ⊢
      by_cases hd : (getSlot m (getIndexOfKeyAtPsl m key (d + 1))).set = true ∧
          (getSlot m (getIndexOfKeyAtPsl m key (d + 1))).key = key
      · rw [if_pos hd] at hfound ⊢
        exact ⟨hd.1, hd.2, rfl⟩
      · rw [if_neg hd] at hfound ⊢
        by_cases hum : (getSlot m (getIndexOfKeyAtPsl m key u)).set = true ∧
            (getSlot m (getIndexOfKeyAtPsl m key u)).key = key
        · rw [if_pos hum] at hfound ⊢
          exact ⟨hum.1, hum.2, rfl⟩
        · rw [if_neg hum] at hfound ⊢
          exact ih (u + 1) hfound
    · rw [if_neg hu] at hfound ⊢
      exact downScan_sound m key (d + 1) hfound

/-- C7: before returning not-found, GetWithIndex examines every probe
offset in the range 0..maxPsl from the home index of the key (when the
bidirectional sweep exhausts one side the other continues alone), so
whenever some occupied slot holds the key at a probe offset p ≤ maxPsl,
the lookup returns found = true together with the value and index of an
occupied slot holding that key. -/
theorem lookup_finds_any_psl_in_range (m : Map K V) (k : K) (p : Nat)
    (hne : m.numElements ≠ 0)
    (hp : p ≤ m.maxPsl)
    (hs : (getSlot m (getIndexOfKeyAtPsl m k p)).set = true)
    (hk : (getSlot m (getIndexOfKeyAtPsl m k p)).key = k) :
    (GetWithIndex m k).2.1 = true ∧
    (getSlot m (GetWithIndex m k).2.2).set = true ∧
    (getSlot m (GetWithIndex m k).2.2).key = k ∧
    (GetWithIndex m k).1 = (getSlot m (GetWithIndex m k).2.2).value := by
  have hG : GetWithIndex m k =
      biScan m k (m.totalPsl / m.numElements) (m.totalPsl / m.numElements + 1) := by
    simp only [GetWithIndex, hne, if_neg, if_false]
  rw [hG]
  have hfound : (biScan m k (m.totalPsl / m.numElements)
      (m.totalPsl / m.numElements + 1)).2.1 = true := by
    refine biScan_finds m k _ _ p ?_ hs hk
    omega
  exact ⟨hfound, biScan_sound m k _ _ hfound⟩

/-- Concrete instantiation of the C7 theorem: in the cluster table tC3
the key 12 sits at probe offset 2 = maxPsl, and GetWithIndex finds it. -/
theorem lookup_finds_any_psl_in_range_witness :
    tC3.numElements ≠ 0 ∧ 2 ≤ tC3.maxPsl ∧ (GetWithIndex tC3 12).2.1 = true :=
  ⟨by decide, by decide,
    (lookup_finds_any_psl_in_range tC3 12 2 (by decide) (by decide) (by rfl) (by rfl)).1⟩

/-!
Lemmas for claim C9: the load-factor check leaves an empty slot, and the
insert probe loop succeeds within size steps whenever one exists.
-/

theorem countSet_cons (e : Elem K V) (l : List (Elem K V)) :
    countSet (e :: l) = countSet l + (if e.set = true then 1 else 0) := by
  simp only [countSet, List.filter_cons]
  by_cases he : e.set = true
  · rw [if_pos he, if_pos he, List.length_cons]
  · rw [if_neg he, if_neg he, Nat.add_zero]

theorem countSet_le_length (l : List (Elem K V)) : countSet l ≤ l.length :=
  List.length_filter_le _ _

theorem countSet_set (l : List (Elem K V)) :
    ∀ i e, i < l.length →
      countSet (l.set i e) + (if (l.getD i zeroElem).set = true then 1 else 0) =
      countSet l + (if e.set = true then 1 else 0) := by
  induction l with
  | nil => intro i e hi; simp at hi
  | cons hd tl ih =>
    intro i e hi
    cases i with
    | zero =>
      simp only [List.set_cons_zero, List.getD_cons_zero, countSet_cons]
      omega
    | succ i =>
      simp only [List.set_cons_succ, List.getD_cons_succ, countSet_cons]
      have := ih i e (by simpa using hi)
      omega

theorem countSet_lt_exists_empty (l : List (Elem K V)) (h : countSet l < l.length) :
    ∃ j, j < l.length ∧ (l.getD j zeroElem).set = false := by
  induction l with
  | nil => simp [countSet] at h
  | cons hd tl ih =>
    by_cases hs : hd.set = true
    · have h2 : countSet tl < tl.length := by
        have := countSet_cons hd tl
        simp only [hs, if_true] at this
        simp only [List.length_cons] at h
        omega
      obtain ⟨j, hj, hje⟩ := ih h2
      exact ⟨j + 1, by simpa using hj, by simpa using hje⟩
    · exact ⟨0, by simp, by simpa using hs⟩

theorem insertLoop_isSome :
    ∀ fuel (m : Map K V) (e : Elem K V) (i : Nat), e.set = true → 0 < m.size →
      i < m.size →
      (∃ t, t < fuel ∧ (getSlot m ((i + t) % m.size)).set = false) →
      ∃ m2, insertLoop m e i fuel = some m2 := by
  intro fuel
  induction fuel with
  | zero => intro m e i _ _ _ h; obtain ⟨t, ht, _⟩ := h; omega
  | succ fuel ih =>
    intro m e i he hsz hi h
    obtain ⟨t, ht, hempty⟩ := h
    simp only [insertLoop]
    by_cases hr : (getSlot m i).set = true
    · rw [if_pos hr]
      have hti : t ≠ 0 := by
        intro h0
        subst h0
        rw [Nat.add_zero, Nat.mod_eq_of_lt hi] at hempty
        rw [hr] at hempty
        cases hempty
      obtain ⟨t', rfl⟩ : ∃ t', t = t' + 1 := ⟨t - 1, by omega⟩
      have hne : (i + (t' + 1)) % m.size ≠ i := by
        intro hcontra
        rw [hcontra, hr] at hempty
        cases hempty
      have hidx : ((i + 1) % m.size + t') % m.size = (i + (t' + 1)) % m.size := by
        rw [Nat.mod_add_mod]
        congr 1
        omega
      by_cases hswap : (getSlot m i).psl < e.psl
      · rw [if_pos hswap]
        simp only [size_updateMaxStatsOnInsert]
        refine ih _ _ _ hr ?_ ?_ ?_
        · simp only [size_updateMaxStatsOnInsert]
          exact hsz
        · simp only [size_updateMaxStatsOnInsert]
          exact Nat.mod_lt _ hsz
        · refine ⟨t', by omega, ?_⟩
          simp only [size_updateMaxStatsOnInsert, getSlot, elements_updateMaxStatsOnInsert]
          rw [hidx]
          rw [getD_set_ne _ _ _ _ _ (fun hh => hne hh.symm)]
          exact hempty
      · rw [if_neg hswap]
        refine ih m ({ e with psl := e.psl + 1 }) ((i + 1) % m.size)
          he hsz (Nat.mod_lt _ hsz) ?_
        refine ⟨t', by omega, ?_⟩
        rw [hidx]
        exact hempty
    · rw [if_neg hr]
      exact ⟨_, rfl⟩

theorem insertKeyValuePair_isSome (m : Map K V) (k : K) (v : V)
    (hsz : 0 < m.size) (hlen : m.elements.length = m.size)
    (hcount : countSet m.elements < m.size) :
    ∃ m2, insertKeyValuePair m k v = some m2 := by
  unfold insertKeyValuePair
  have hhome : m.hash k % m.size < m.size := Nat.mod_lt _ hsz
  obtain ⟨j, hj, hje⟩ := countSet_lt_exists_empty m.elements (by omega)
  rw [hlen] at hj
  refine insertLoop_isSome m.size m ⟨k, v, 0, true⟩ (m.hash k % m.size) rfl hsz hhome ?_
  refine ⟨(j + m.size - m.hash k % m.size) % m.size, Nat.mod_lt _ hsz, ?_⟩
  rw [mod_add_offset hhome hj]
  exact hje

theorem insertLoop_fields :
    ∀ fuel (m : Map K V) (e : Elem K V) (i : Nat) (m2 : Map K V),
      insertLoop m e i fuel = some m2 → e.set = true → i < m.size →
      m.elements.length = m.size →
      m2.size = m.size ∧ m2.elements.length = m.size ∧ m2.hash = m.hash ∧
      countSet m2.elements = countSet m.elements + 1 ∧
      m2.numElements = m.numElements + 1 := by
  intro fuel
  induction fuel with
  | zero => intro m e i m2 hsome; cases hsome
  | succ fuel ih =>
    intro m e i m2 hsome he hi hlen
    simp only [insertLoop] at hsome
    by_cases hr : (getSlot m i).set = true
    · rw [if_pos hr] at hsome
      have hilen : i < m.elements.length := by omega
      by_cases hswap : (getSlot m i).psl < e.psl
      · rw [if_pos hswap] at hsome
        have h2 := ih _ _ _ _ hsome hr (by
          simpa only [size_updateMaxStatsOnInsert] using
            Nat.mod_lt (i + 1) (by omega : 0 < m.size)) (by
          simp only [elements_updateMaxStatsOnInsert, size_updateMaxStatsOnInsert,
            List.length_set]
          exact hlen)
        simp only [size_updateMaxStatsOnInsert, elements_updateMaxStatsOnInsert,
          hash_updateMaxStatsOnInsert, numElements_updateMaxStatsOnInsert,
          List.length_set] at h2
        have hrD : (m.elements.getD i zeroElem).set = true := hr
        have hcs := countSet_set m.elements i e hilen
        rw [hrD, he] at hcs
        simp at hcs
        obtain ⟨ha, hb, hc, hd, hne⟩ := h2
        exact ⟨ha, hb, hc, by omega, hne⟩
      · rw [if_neg hswap] at hsome
        exact ih _ _ _ _ hsome he (Nat.mod_lt _ (by omega)) hlen
    · rw [if_neg hr] at hsome
      have hm2 : m2 = { updateMaxStatsOnInsert
          { m with elements := m.elements.set i e, numElements := m.numElements + 1 }
          e.psl with
        totalPsl := (updateMaxStatsOnInsert
          { m with elements := m.elements.set i e, numElements := m.numElements + 1 }
          e.psl).totalPsl + e.psl } := by
        exact (Option.some_inj.mp hsome).symm
      have hilen : i < m.elements.length := by omega
      have hrD : (m.elements.getD i zeroElem).set = false := by
        have h0 : (getSlot m i).set = false := by
          cases h1 : (getSlot m i).set
          · rfl
          · exact absurd h1 hr
        exact h0
      have hcs := countSet_set m.elements i e hilen
      rw [hrD, he] at hcs
      simp at hcs
      subst hm2
      refine ⟨?_, ?_, ?_, ?_, ?_⟩
      · simp only [size_updateMaxStatsOnInsert]
      · simp only [elements_updateMaxStatsOnInsert, List.length_set]
        exact hlen
      · simp only [hash_updateMaxStatsOnInsert]
      · simp only [elements_updateMaxStatsOnInsert]
        omega
      · simp only [numElements_updateMaxStatsOnInsert]

theorem countSet_replicate (n : Nat) : countSet (List.replicate n (zeroElem : Elem K V)) = 0 := by
  induction n with
  | zero => rfl
  | succ n ih =>
    rw [List.replicate_succ, countSet_cons, ih]
    simp [zeroElem]

theorem foldIns_isSome (l : List (Elem K V)) :
    ∀ (acc : Map K V), 0 < acc.size → acc.elements.length = acc.size →
      countSet acc.elements + l.length ≤ acc.size →
      ∃ m2, List.foldlM (fun a e => insertKeyValuePair a e.key e.value) acc l = some m2 ∧
        m2.size = acc.size ∧ m2.elements.length = acc.size ∧
        countSet m2.elements = countSet acc.elements + l.length := by
  induction l with
  | nil =>
    intro acc hsz hlen hcnt
    exact ⟨acc, rfl, rfl, hlen, by simp⟩
  | cons x xs ih =>
    intro acc hsz hlen hcnt
    simp only [List.length_cons] at hcnt
    obtain ⟨m1, hm1⟩ := insertKeyValuePair_isSome acc x.key x.value hsz hlen (by omega)
    have hf := insertLoop_fields acc.size acc ⟨x.key, x.value, 0, true⟩ _ m1 hm1 rfl
      (Nat.mod_lt _ hsz) hlen
    obtain ⟨ha, hb, _hc, hd, _he⟩ := hf
    obtain ⟨m2, hm2, h2a, h2b, h2c⟩ := ih m1 (by omega) (by omega) (by omega)
    refine ⟨m2, ?_, by omega, by omega, by simp only [List.length_cons]; omega⟩
    rw [List.foldlM_cons, hm1]
    simpa using hm2

theorem rehashTable_isSome (m : Map K V) (hsz : 0 < m.size)
    (hlen : m.elements.length = m.size) :
    ∃ m2, rehashTable m = some m2 ∧ m2.size = 2 * m.size ∧
      m2.elements.length = 2 * m.size ∧ countSet m2.elements = m.size := by
  obtain ⟨m2, hm2, ha, hb, hc⟩ := foldIns_isSome m.elements (freshDoubled m)
    (show 0 < m.size * 2 by omega)
    (show (List.replicate (m.size * 2) (zeroElem : Elem K V)).length = m.size * 2 by simp)
    (show countSet (List.replicate (m.size * 2) (zeroElem : Elem K V)) +
        m.elements.length ≤ m.size * 2 by rw [countSet_replicate]; omega)
  have ha2 : m2.size = m.size * 2 := ha
  have hb2 : m2.elements.length = m.size * 2 := hb
  have hc2 : countSet m2.elements =
      countSet (List.replicate (m.size * 2) (zeroElem : Elem K V)) + m.elements.length := hc
  rw [countSet_replicate] at hc2
  exact ⟨m2, hm2, by omega, by omega, by omega⟩

/-- C9: every call to Set terminates.  On any well-formed table (element
count matching the occupied slots, slot array of length size) the
load-factor check, with its threshold below 1, guarantees an empty slot
before the insertion loop runs, and a resize re-establishes that bound,
so neither the Go probe loop (modelled by the fuel cutoff of insertLoop)
nor the rehash can run forever: Set always returns a table. -/
theorem set_always_terminates (m : Map K V) (k : K) (v : V)
    (hsz : 0 < m.size) (hlen : m.elements.length = m.size)
    (hcount : countSet m.elements = m.numElements) :
    ∃ m2, Set m k v = some m2 := by
  simp only [Set]
  by_cases hl : loadCheck m = true
  · rw [if_pos hl]
    obtain ⟨m1, hm1, ha, hb, hc⟩ := rehashTable_isSome m hsz hlen
    rw [hm1]
    simp only [Option.some_bind]
    by_cases hf : (GetWithIndex m1 k).2.1 = true
    · rw [if_pos hf]
      exact ⟨_, rfl⟩
    · rw [if_neg hf]
      exact insertKeyValuePair_isSome m1 k v (by omega) (by omega) (by omega)
  · rw [if_neg hl]
    have hload : ¬ (9 * m.size ≤ 10 * m.numElements) := by
      intro hcontra
      exact hl (by simpa [loadCheck] using hcontra)
    have hnum : m.numElements < m.size := by omega
    by_cases hf : (GetWithIndex m k).2.1 = true
    · rw [if_pos hf]
      exact ⟨_, rfl⟩
    · rw [if_neg hf]
      exact insertKeyValuePair_isSome m k v hsz hlen (by omega)

/-- Concrete instantiation of the C9 theorem on the reachable cluster
table tC3. -/
theorem set_always_terminates_witness :
    0 < tC3.size ∧ tC3.elements.length = tC3.size ∧
    countSet tC3.elements = tC3.numElements ∧ ∃ m2, Set tC3 5 55 = some m2 :=
  ⟨by decide, by decide, by decide,
    set_always_terminates tC3 5 55 (by decide) (by decide) (by decide)⟩

/-!
Lemmas about the backward-shift loop measure: every iteration strictly
decreases the sum of stored PSLs, so the fuel Delete passes can never be
exhausted and the fuel-cutoff model agrees with the Go loop.
-/

theorem pslSum_cons (e : Elem K V) (l : List (Elem K V)) :
    pslSum (e :: l) = e.psl + pslSum l := by
  simp [pslSum]

theorem pslSum_set (l : List (Elem K V)) :
    ∀ n e, n < l.length →
      pslSum (l.set n e) + (l.getD n zeroElem).psl = pslSum l + e.psl := by
  induction l with
  | nil => intro n e hn; simp at hn
  | cons hd tl ih =>
    intro n e hn
    cases n with
    | zero =>
      simp only [List.set_cons_zero, List.getD_cons_zero, pslSum_cons]
      omega
    | succ n =>
      have := ih n e (by simpa using hn)
      simp only [List.set_cons_succ, List.getD_cons_succ, pslSum_cons]
      omega

theorem pslSum_shiftStep_lt (m : Map K V) (i j : Nat)
    (h : (getSlot m j).set = true ∧ 0 < (getSlot m j).psl) :
    pslSum (shiftStep m i j).elements < pslSum m.elements := by
  obtain ⟨hset, hpsl⟩ := h
  have hj : j < m.elements.length := by
    by_contra hge
    push_neg at hge
    have h0 : getSlot m j = zeroElem := by
      simp only [getSlot]
      exact List.getD_eq_default _ _ hge
    rw [h0] at hset
    cases hset
  have hmain : ∀ (l : List (Elem K V)) (a b : Nat) (x : Elem K V), b < l.length →
      x.psl < (l.getD b zeroElem).psl →
      pslSum (((l.set b x).set a x).set b zeroElem) < pslSum l := by
    intro l a b x hb hx
    have h1 := pslSum_set l b x hb
    have hlen1 : (l.set b x).length = l.length := by simp
    rcases Nat.lt_or_ge a (l.set b x).length with ha | ha
    · by_cases hab : a = b
      · subst hab
        have h2 := pslSum_set (l.set a x) a x (by omega)
        rw [getD_set_self l a x zeroElem hb] at h2
        have h3 := pslSum_set ((l.set a x).set a x) a zeroElem (by simp; omega)
        rw [getD_set_self (l.set a x) a x zeroElem (by omega)] at h3
        rw [show (zeroElem : Elem K V).psl = 0 from rfl] at h3
        omega
      · have h2 := pslSum_set (l.set b x) a x ha
        have h3 := pslSum_set ((l.set b x).set a x) b zeroElem (by simp; omega)
        rw [getD_set_ne (l.set b x) a b x zeroElem hab,
          getD_set_self l b x zeroElem hb] at h3
        rw [show (zeroElem : Elem K V).psl = 0 from rfl] at h3
        omega
    · rw [List.set_eq_of_length_le ha]
      have h3 := pslSum_set (l.set b x) b zeroElem (by omega)
      rw [getD_set_self l b x zeroElem hb] at h3
      rw [show (zeroElem : Elem K V).psl = 0 from rfl] at h3
      omega
  have hups : ∀ (mm : Map K V), (updateMaxStatsOnDelete mm).elements = mm.elements :=
    elements_updateMaxStatsOnDelete
  have happ := hmain m.elements i j
    ⟨(getSlot m j).key, (getSlot m j).value, (getSlot m j).psl - 1, (getSlot m j).set⟩
    hj (by simpa [getSlot] using Nat.sub_lt hpsl Nat.one_pos)
  unfold shiftStep
  dsimp only
  split
  · simpa [hups, getSlot] using happ
  · simpa [getSlot] using happ

theorem shiftLoop_fuel_irrelevant :
    ∀ f1 f2 (m : Map K V) (i j : Nat), pslSum m.elements < f1 → pslSum m.elements < f2 →
      shiftLoop m i j f1 = shiftLoop m i j f2 := by
  intro f1
  induction f1 with
  | zero => intro f2 m i j h1; omega
  | succ f1 ih =>
    intro f2 m i j h1 h2
    obtain ⟨f2', rfl⟩ : ∃ f2', f2 = f2' + 1 := ⟨f2 - 1, by omega⟩
    simp only [shiftLoop]
    by_cases hg : (getSlot m j).set = true ∧ 0 < (getSlot m j).psl
    · rw [if_pos hg, if_pos hg]
      have hlt := pslSum_shiftStep_lt m i j hg
      exact ih f2' (shiftStep m i j) _ _ (by omega) (by omega)
    · rw [if_neg hg, if_neg hg]

/-!
Modular index arithmetic for the ring of slots.
-/

theorem psl_formula_iff {n h i p : Nat} (hh : h < n) (hi : i < n) :
    p = (i + n - h) % n ↔ (p < n ∧ (h + p) % n = i) := by
  constructor
  · intro hp
    subst hp
    refine ⟨Nat.mod_lt _ (by omega), ?_⟩
    exact mod_add_offset hh hi
  · rintro ⟨hpn, hmod⟩
    subst hmod
    rcases Nat.lt_or_ge (h + p) n with hc | hc
    · rw [Nat.mod_eq_of_lt hc]
      have : h + p + n - h = p + n := by omega
      rw [this, Nat.add_mod_right, Nat.mod_eq_of_lt hpn]
    · have hc2 : h + p < 2 * n := by omega
      have hmod2 : (h + p) % n = h + p - n := by
        rw [Nat.mod_eq_sub_mod hc, Nat.mod_eq_of_lt (by omega)]
      rw [hmod2]
      have : h + p - n + n - h = p := by omega
      rw [this, Nat.mod_eq_of_lt hpn]

theorem pred_unique {n x i : Nat} (hx : x < n) (hsucc : (x + 1) % n = i) :
    x = (i + n - 1) % n := by
  rcases Nat.lt_or_ge (x + 1) n with hc | hc
  · rw [Nat.mod_eq_of_lt hc] at hsucc
    subst hsucc
    have : x + 1 + n - 1 = x + n := by omega
    rw [this, Nat.add_mod_right, Nat.mod_eq_of_lt hx]
  · have hxn : x + 1 = n := by omega
    have hi0 : i = 0 := by
      rw [← hsucc, hxn, Nat.mod_self]
    subst hi0
    have : 0 + n - 1 = x := by omega
    rw [this, Nat.mod_eq_of_lt hx]

theorem succ_pred_mod {n i : Nat} (hi : i < n) : ((i + n - 1) % n + 1) % n = i := by
  rw [Nat.mod_add_mod]
  have : i + n - 1 + 1 = i + n := by omega
  rw [this, Nat.add_mod_right, Nat.mod_eq_of_lt hi]

theorem succ_mod_eq {n x i : Nat} (hn : 0 < n) (hsucc : (x + 1) % n = i) :
    x % n = (i + n - 1) % n := by
  have h1 : (x % n + 1) % n = i := by
    rw [Nat.mod_add_mod]
    exact hsucc
  exact pred_unique (Nat.mod_lt _ hn) h1

theorem add_left_mod_inj {n h a b : Nat} (ha : a < n) (hb : b < n)
    (heq : (h + a) % n = (h + b) % n) : a = b := by
  have h1 : h + a ≡ h + b [MOD n] := heq
  have h2 : a ≡ b [MOD n] := Nat.ModEq.add_left_cancel' h h1
  have h3 : a % n = b % n := h2
  rw [Nat.mod_eq_of_lt ha, Nat.mod_eq_of_lt hb] at h3
  exact h3

/-!
Occupancy and home-index helpers for the invariant-preservation proofs.
-/

theorem home_congr (m2 m : Map K V) (hhash : m2.hash = m.hash)
    (hsize : m2.size = m.size) (k : K) : home m2 k = home m k := by
  unfold home
  rw [hhash, hsize]

theorem occ_lt_length (m : Map K V) (i : Nat) (h : occ m i) :
    i < m.elements.length := by
  by_contra hge
  push_neg at hge
  have h0 : getSlot m i = zeroElem := by
    simp only [getSlot]
    exact List.getD_eq_default _ _ hge
  unfold occ at h
  rw [h0] at h
  cases h

theorem getSlot_of_set_self (m2 m : Map K V) (i : Nat) (e : Elem K V)
    (hel : m2.elements = m.elements.set i e) (hi : i < m.elements.length) :
    getSlot m2 i = e := by
  simp only [getSlot, hel]
  exact getD_set_self _ _ _ _ hi

theorem getSlot_of_set_ne (m2 m : Map K V) (i : Nat) (e : Elem K V) (x : Nat)
    (hel : m2.elements = m.elements.set i e) (hx : i ≠ x) :
    getSlot m2 x = getSlot m x := by
  simp only [getSlot, hel]
  exact getD_set_ne _ _ _ _ _ hx

theorem occ_of_set_true (m2 m : Map K V) (i : Nat) (e : Elem K V)
    (hel : m2.elements = m.elements.set i e) (hset : e.set = true) (y : Nat)
    (hy : occ m y) : occ m2 y := by
  by_cases hyi : i = y
  · subst hyi
    unfold occ
    rw [getSlot_of_set_self m2 m i e hel (occ_lt_length m i hy)]
    exact hset
  · unfold occ
    rw [getSlot_of_set_ne m2 m i e y hel hyi]
    exact hy

theorem occ_store_self (m2 m : Map K V) (i : Nat) (e : Elem K V)
    (hel : m2.elements = m.elements.set i e) (hset : e.set = true)
    (hi : i < m.elements.length) : occ m2 i := by
  unfold occ
  rw [getSlot_of_set_self m2 m i e hel hi]
  exact hset

theorem store_bound (m2 m : Map K V) (i : Nat) (e : Elem K V) (p : Nat)
    (hel : m2.elements = m.elements.set i e) (hi : i < m.elements.length)
    (hle : p ≤ e.psl + 1) : p ≤ (getSlot m2 i).psl + 1 := by
  rw [getSlot_of_set_self m2 m i e hel hi]
  omega

theorem all_occ_count (l : List (Elem K V))
    (h : ∀ j, j < l.length → (l.getD j zeroElem).set = true) :
    countSet l = l.length := by
  induction l with
  | nil => rfl
  | cons hd tl ih =>
    have h0 : hd.set = true := h 0 (by simp)
    rw [countSet_cons, if_pos h0, List.length_cons, ih]
    intro j hj
    have := h (j + 1) (by simpa using hj)
    simpa using this

theorem path_full_absurd (m : Map K V) (h : Nat) (hh : h < m.size)
    (hlen : m.elements.length = m.size) (hcount : countSet m.elements < m.size)
    (hpath : ∀ t, t < m.size → occ m ((h + t) % m.size)) : False := by
  have hall : ∀ j, j < m.elements.length → (m.elements.getD j zeroElem).set = true := by
    intro j hj
    rw [hlen] at hj
    have ht : (j + m.size - h) % m.size < m.size := Nat.mod_lt _ (by omega)
    have h2 := hpath _ ht
    rw [mod_add_offset hh hj] at h2
    exact h2
  have := all_occ_count m.elements hall
  omega

theorem pslOk_pair (m : Map K V) (hsz : 0 < m.size) (hpsl : PslOk m) (x : Nat)
    (hx : x < m.size) (hocc : occ m x) :
    (getSlot m x).psl < m.size ∧
    (home m (getSlot m x).key + (getSlot m x).psl) % m.size = x :=
  (psl_formula_iff (Nat.mod_lt _ hsz) hx).mp (hpsl x hx hocc)

/-- Storing the traveling entry e into slot i (either into an empty slot,
or displacing a strictly poorer resident under the Robin Hood rule)
keeps PSL correctness, cluster contiguity and the adjacency invariant.
The hypotheses are the probe-loop invariants: e has traveled e.psl slots
from its home index to i over a fully occupied path, and its PSL exceeds
the PSL of the preceding slot by at most one. -/
theorem store_entry_preserves (m2 m : Map K V) (e : Elem K V) (i : Nat)
    (hlen : m.elements.length = m.size) (hsz : 0 < m.size)
    (hpsl : PslOk m) (hcontig : Contig m) (hadj : Adj m)
    (hel : m2.elements = m.elements.set i e)
    (hsize : m2.size = m.size) (hhash : m2.hash = m.hash)
    (hset : e.set = true) (hepsl : e.psl < m.size)
    (hieq : (home m e.key + e.psl) % m.size = i)
    (hpath : ∀ t, t < e.psl → occ m ((home m e.key + t) % m.size))
    (hA : e.psl = 0 ∨ (occ m ((i + m.size - 1) % m.size) ∧
      e.psl ≤ (getSlot m ((i + m.size - 1) % m.size)).psl + 1))
    (hcase : (getSlot m i).set = false ∨
      ((getSlot m i).set = true ∧ (getSlot m i).psl < e.psl)) :
    PslOk m2 ∧ Contig m2 ∧ Adj m2 := by
  have hhome : home m e.key < m.size := Nat.mod_lt _ hsz
  have hi : i < m.size := by rw [← hieq]; exact Nat.mod_lt _ hsz
  have hilen : i < m.elements.length := by omega
  have hGi : getSlot m2 i = e := getSlot_of_set_self m2 m i e hel hilen
  have hGne : ∀ x, i ≠ x → getSlot m2 x = getSlot m x :=
    fun x hx => getSlot_of_set_ne m2 m i e x hel hx
  have hOcc : ∀ y, occ m y → occ m2 y := occ_of_set_true m2 m i e hel hset
  have hHome : ∀ k, home m2 k = home m k := home_congr m2 m hhash hsize
  refine ⟨?_, ?_, ?_⟩
  · -- PslOk m2
    intro x hx hocc2
    rw [hsize] at hx
    rw [hsize, hHome]
    by_cases hxi : x = i
    · subst hxi
      rw [hGi]
      exact (psl_formula_iff hhome hx).mpr ⟨hepsl, hieq⟩
    · rw [hGne x (fun hh => hxi hh.symm)]
      have hocc3 : occ m x := by
        have h1 : (getSlot m2 x).set = true := hocc2
        rw [hGne x (fun hh => hxi hh.symm)] at h1
        exact h1
      exact hpsl x hx hocc3
  · -- Contig m2
    intro x hx hocc2 t ht
    rw [hsize] at hx ⊢
    rw [hHome]
    by_cases hxi : x = i
    · subst hxi
      rw [hGi] at ht ⊢
      exact hOcc _ (hpath t ht)
    · rw [hGne x (fun hh => hxi hh.symm)] at ht ⊢
      have hocc3 : occ m x := by
        have h1 : (getSlot m2 x).set = true := hocc2
        rw [hGne x (fun hh => hxi hh.symm)] at h1
        exact h1
      exact hOcc _ (hcontig x hx hocc3 t ht)
  · -- Adj m2
    intro x hx hocc1 hocc2
    rw [hsize] at hx hocc2 ⊢
    by_cases hxi : x = i
    · rw [hxi] at hocc2 ⊢
      by_cases hyi : (i + 1) % m.size = i
      · rw [hyi] at hocc2 ⊢
        omega
      · rw [hGi, hGne _ (fun hh => hyi hh.symm)]
        have hy : (i + 1) % m.size < m.size := Nat.mod_lt _ hsz
        have hocc3 : occ m ((i + 1) % m.size) := by
          have h1 : (getSlot m2 ((i + 1) % m.size)).set = true := hocc2
          rw [hGne _ (fun hh => hyi hh.symm)] at h1
          exact h1
        rcases hcase with hempty | ⟨hoccI, hlt⟩
        · -- slot i was empty in m: the successor slot must have PSL 0,
          -- because otherwise its probe path would cross the empty slot i
          have hzero : (getSlot m ((i + 1) % m.size)).psl = 0 := by
            by_contra hne
            have hpos : 0 < (getSlot m ((i + 1) % m.size)).psl := by omega
            obtain ⟨hbnd, heq⟩ := pslOk_pair m hsz hpsl _ hy hocc3
            have hstep : (home m (getSlot m ((i + 1) % m.size)).key +
                ((getSlot m ((i + 1) % m.size)).psl - 1) + 1) % m.size =
                (i + 1) % m.size := by
              rw [show home m (getSlot m ((i + 1) % m.size)).key +
                ((getSlot m ((i + 1) % m.size)).psl - 1) + 1 =
                home m (getSlot m ((i + 1) % m.size)).key +
                (getSlot m ((i + 1) % m.size)).psl from by omega]
              rw [heq]
            have h2 := succ_mod_eq hsz hstep
            have h3 := pred_unique hi (rfl : (i + 1) % m.size = (i + 1) % m.size)
            have hpred : (home m (getSlot m ((i + 1) % m.size)).key +
                ((getSlot m ((i + 1) % m.size)).psl - 1)) % m.size = i :=
              h2.trans h3.symm
            have hocc4 := hcontig _ hy hocc3 _ (by omega : (getSlot m
              ((i + 1) % m.size)).psl - 1 < (getSlot m ((i + 1) % m.size)).psl)
            rw [hpred] at hocc4
            have h5 : (getSlot m i).set = true := hocc4
            rw [hempty] at h5
            cases h5
          rw [hzero]
          omega
        · have := hadj i hi hoccI hocc3
          omega
    · have hocc1' : occ m x := by
        have h1 : (getSlot m2 x).set = true := hocc1
        rw [hGne x (fun hh => hxi hh.symm)] at h1
        exact h1
      rw [hGne x (fun hh => hxi hh.symm)]
      by_cases hyx : (x + 1) % m.size = i
      · rw [hyx, hGi]
        rcases hA with h0 | ⟨hoccP, hbound⟩
        · rw [h0]
          omega
        · have hxeq : x = (i + m.size - 1) % m.size := pred_unique hx hyx
          rw [← hxeq] at hbound
          exact hbound
      · rw [hGne _ (fun hh => hyx hh.symm)]
        have hocc2' : occ m ((x + 1) % m.size) := by
          have h1 : (getSlot m2 ((x + 1) % m.size)).set = true := hocc2
          rw [hGne _ (fun hh => hyx hh.symm)] at h1
          exact h1
        exact hadj x hx hocc1' hocc2'

/-- The probe loop of insertKeyValuePair preserves the slot invariants:
starting from a state satisfying them, with the traveling entry carrying
its loop invariant, any successful exit satisfies them again. -/
theorem insertLoop_preserves :
    ∀ fuel (m : Map K V) (e : Elem K V) (i : Nat) (m2 : Map K V),
      insertLoop m e i fuel = some m2 →
      m.elements.length = m.size → 0 < m.size →
      countSet m.elements < m.size →
      PslOk m → Contig m → Adj m →
      e.set = true → e.psl < m.size →
      (home m e.key + e.psl) % m.size = i →
      (∀ t, t < e.psl → occ m ((home m e.key + t) % m.size)) →
      (e.psl = 0 ∨ (occ m ((i + m.size - 1) % m.size) ∧
        e.psl ≤ (getSlot m ((i + m.size - 1) % m.size)).psl + 1)) →
      m2.size = m.size ∧ m2.elements.length = m.size ∧ m2.hash = m.hash ∧
      PslOk m2 ∧ Contig m2 ∧ Adj m2 := by
  intro fuel
  induction fuel with
  | zero => intro m e i m2 hsome; cases hsome
  | succ fuel ih =>
    intro m e i m2 hsome hlen hsz hcount hpsl hcontig hadj hset hepsl hieq hpath hA
    have hi : i < m.size := by rw [← hieq]; exact Nat.mod_lt _ hsz
    have hilen : i < m.elements.length := by omega
    have hhome : home m e.key < m.size := Nat.mod_lt _ hsz
    have hpredi : ((i + 1) % m.size + m.size - 1) % m.size = i :=
      (pred_unique hi (rfl : (i + 1) % m.size = (i + 1) % m.size)).symm
    simp only [insertLoop] at hsome
    by_cases hr : (getSlot m i).set = true
    · rw [if_pos hr] at hsome
      obtain ⟨hrbnd, hreq⟩ := pslOk_pair m hsz hpsl i hi hr
      have hrhome : home m (getSlot m i).key < m.size := Nat.mod_lt _ hsz
      by_cases hswap : (getSlot m i).psl < e.psl
      · rw [if_pos hswap] at hsome
        simp only [size_updateMaxStatsOnInsert] at hsome
        have hfull : ∀ t, t < (getSlot m i).psl + 1 →
            occ m ((home m (getSlot m i).key + t) % m.size) := by
          intro t ht
          rcases Nat.lt_or_ge t (getSlot m i).psl with h1 | h1
          · exact hcontig i hi hr t h1
          · have ht2 : t = (getSlot m i).psl := by omega
            rw [ht2, hreq]
            exact hr
        have hrlt : (getSlot m i).psl + 1 < m.size := by
          rcases Nat.lt_or_ge ((getSlot m i).psl + 1) m.size with h1 | h1
          · exact h1
          · exact absurd (fun t ht => hfull t (by omega))
              (fun hall => path_full_absurd m _ hrhome hlen hcount hall)
        have hcnt2 : countSet (m.elements.set i e) = countSet m.elements := by
          have hcs := countSet_set m.elements i e hilen
          have hrD : (m.elements.getD i zeroElem).set = true := hr
          rw [hrD, hset] at hcs
          simp at hcs
          omega
        have hres := ih _ _ _ _ hsome
          (by simp only [elements_updateMaxStatsOnInsert, size_updateMaxStatsOnInsert,
            List.length_set]; exact hlen)
          (by simp only [size_updateMaxStatsOnInsert]; exact hsz)
          (by simp only [elements_updateMaxStatsOnInsert, size_updateMaxStatsOnInsert]
              rw [hcnt2]; exact hcount)
          ((store_entry_preserves _ m e i hlen hsz hpsl hcontig hadj
            (by simp only [elements_updateMaxStatsOnInsert])
            (by simp only [size_updateMaxStatsOnInsert])
            (by simp only [hash_updateMaxStatsOnInsert])
            hset hepsl hieq hpath hA (Or.inr ⟨hr, hswap⟩)).1)
          ((store_entry_preserves _ m e i hlen hsz hpsl hcontig hadj
            (by simp only [elements_updateMaxStatsOnInsert])
            (by simp only [size_updateMaxStatsOnInsert])
            (by simp only [hash_updateMaxStatsOnInsert])
            hset hepsl hieq hpath hA (Or.inr ⟨hr, hswap⟩)).2.1)
          ((store_entry_preserves _ m e i hlen hsz hpsl hcontig hadj
            (by simp only [elements_updateMaxStatsOnInsert])
            (by simp only [size_updateMaxStatsOnInsert])
            (by simp only [hash_updateMaxStatsOnInsert])
            hset hepsl hieq hpath hA (Or.inr ⟨hr, hswap⟩)).2.2)
          (by exact hr)
          (by
            show (getSlot m i).psl + 1 < _
            simp only [size_updateMaxStatsOnInsert]
            exact hrlt)
          (by
            rw [home_congr _ m (by simp only [hash_updateMaxStatsOnInsert])
              (by simp only [size_updateMaxStatsOnInsert])]
            simp only [size_updateMaxStatsOnInsert]
            show (home m (getSlot m i).key + ((getSlot m i).psl + 1)) % m.size =
              (i + 1) % m.size
            rw [show home m (getSlot m i).key + ((getSlot m i).psl + 1) =
              home m (getSlot m i).key + (getSlot m i).psl + 1 from by omega]
            rw [← Nat.mod_add_mod, hreq])
          (by
            intro t ht
            rw [home_congr _ m (by simp only [hash_updateMaxStatsOnInsert])
              (by simp only [size_updateMaxStatsOnInsert])]
            simp only [size_updateMaxStatsOnInsert]
            refine occ_of_set_true _ m i e
              (by simp only [elements_updateMaxStatsOnInsert]) hset _ ?_
            exact hfull t ht)
          (by
            refine Or.inr ?_
            simp only [size_updateMaxStatsOnInsert]
            rw [hpredi]
            constructor
            · exact occ_store_self _ m i e
                (by simp only [elements_updateMaxStatsOnInsert]) hset hilen
            · refine store_bound _ m i e _
                (by simp only [elements_updateMaxStatsOnInsert]) hilen ?_
              show (getSlot m i).psl + 1 ≤ e.psl + 1
              omega)
        simp only [size_updateMaxStatsOnInsert, hash_updateMaxStatsOnInsert] at hres
        exact hres
      · rw [if_neg hswap] at hsome
        push_neg at hswap
        have hfull : ∀ t, t < e.psl + 1 → occ m ((home m e.key + t) % m.size) := by
          intro t ht
          rcases Nat.lt_or_ge t e.psl with h1 | h1
          · exact hpath t h1
          · have ht2 : t = e.psl := by omega
            rw [ht2, hieq]
            exact hr
        have helt : e.psl + 1 < m.size := by
          rcases Nat.lt_or_ge (e.psl + 1) m.size with h1 | h1
          · exact h1
          · exact absurd (fun t ht => hfull t (by omega))
              (fun hall => path_full_absurd m _ hhome hlen hcount hall)
        exact ih _ _ _ _ hsome hlen hsz hcount hpsl hcontig hadj
          (by exact hset)
          (by exact helt)
          (by
            show (home m e.key + (e.psl + 1)) % m.size = (i + 1) % m.size
            rw [show home m e.key + (e.psl + 1) = home m e.key + e.psl + 1 from by omega]
            rw [← Nat.mod_add_mod, hieq])
          (by intro t ht; exact hfull t ht)
          (by
            refine Or.inr ?_
            rw [hpredi]
            refine ⟨hr, ?_⟩
            show e.psl + 1 ≤ (getSlot m i).psl + 1
            omega)
    · rw [if_neg hr] at hsome
      have hrf : (getSlot m i).set = false := by
        cases h1 : (getSlot m i).set
        · rfl
        · exact absurd h1 hr
      have hm2 : m2 = _ := (Option.some_inj.mp hsome).symm
      subst hm2
      refine ⟨?_, ?_, ?_, ?_, ?_, ?_⟩
      · simp only [size_updateMaxStatsOnInsert]
      · simp only [elements_updateMaxStatsOnInsert, List.length_set]
        exact hlen
      · simp only [hash_updateMaxStatsOnInsert]
      · exact (store_entry_preserves _ m e i hlen hsz hpsl hcontig hadj
          (by simp only [elements_updateMaxStatsOnInsert])
          (by simp only [size_updateMaxStatsOnInsert])
          (by simp only [hash_updateMaxStatsOnInsert])
          hset hepsl hieq hpath hA (Or.inl hrf)).1
      · exact (store_entry_preserves _ m e i hlen hsz hpsl hcontig hadj
          (by simp only [elements_updateMaxStatsOnInsert])
          (by simp only [size_updateMaxStatsOnInsert])
          (by simp only [hash_updateMaxStatsOnInsert])
          hset hepsl hieq hpath hA (Or.inl hrf)).2.1
      · exact (store_entry_preserves _ m e i hlen hsz hpsl hcontig hadj
          (by simp only [elements_updateMaxStatsOnInsert])
          (by simp only [size_updateMaxStatsOnInsert])
          (by simp only [hash_updateMaxStatsOnInsert])
          hset hepsl hieq hpath hA (Or.inl hrf)).2.2

theorem insertKeyValuePair_preserves (m : Map K V) (k : K) (v : V) (m2 : Map K V)
    (hsome : insertKeyValuePair m k v = some m2)
    (hlen : m.elements.length = m.size) (hsz : 0 < m.size)
    (hcount : countSet m.elements < m.size)
    (hpsl : PslOk m) (hcontig : Contig m) (hadj : Adj m) :
    m2.size = m.size ∧ m2.elements.length = m.size ∧ m2.hash = m.hash ∧
    PslOk m2 ∧ Contig m2 ∧ Adj m2 := by
  refine insertLoop_preserves m.size m ⟨k, v, 0, true⟩ _ m2 hsome hlen hsz hcount
    hpsl hcontig hadj rfl hsz ?_ ?_ ?_
  · show (home m k + 0) % m.size = m.hash k % m.size
    rw [Nat.add_zero]
    unfold home
    exact Nat.mod_eq_of_lt (Nat.mod_lt _ hsz)
  · intro t ht
    exact absurd ht (Nat.not_lt_zero t)
  · exact Or.inl rfl

theorem foldIns_preserves (l : List (Elem K V)) :
    ∀ (acc m2 : Map K V),
      List.foldlM (fun a e => insertKeyValuePair a e.key e.value) acc l = some m2 →
      0 < acc.size → acc.elements.length = acc.size →
      countSet acc.elements + l.length ≤ acc.size →
      PslOk acc → Contig acc → Adj acc →
      m2.size = acc.size ∧ m2.elements.length = acc.size ∧
      countSet m2.elements = countSet acc.elements + l.length ∧
      PslOk m2 ∧ Contig m2 ∧ Adj m2 := by
  induction l with
  | nil =>
    intro acc m2 hsome hsz hlen hcnt hpsl hcontig hadj
    simp only [List.foldlM_nil] at hsome
    have hacc : acc = m2 := Option.some_inj.mp hsome
    subst hacc
    exact ⟨rfl, hlen, by simp, hpsl, hcontig, hadj⟩
  | cons x xs ih =>
    intro acc m2 hsome hsz hlen hcnt hpsl hcontig hadj
    rw [List.foldlM_cons] at hsome
    cases hins : insertKeyValuePair acc x.key x.value with
    | none =>
      rw [hins] at hsome
      simp at hsome
    | some m1 =>
      rw [hins] at hsome
      simp only [Option.bind_eq_bind, Option.some_bind] at hsome
      have hcnt1 : countSet acc.elements < acc.size := by
        simp only [List.length_cons] at hcnt
        omega
      have hpres := insertKeyValuePair_preserves acc x.key x.value m1 hins hlen hsz
        hcnt1 hpsl hcontig hadj
      obtain ⟨ha, hb, hc, hd, he, hf⟩ := hpres
      have hflds := insertLoop_fields acc.size acc ⟨x.key, x.value, 0, true⟩ _ m1 hins
        rfl (Nat.mod_lt _ hsz) hlen
      obtain ⟨_, _, _, hcnt2, _⟩ := hflds
      have hrec := ih m1 m2 hsome (by omega) (by omega)
        (by simp only [List.length_cons] at hcnt; omega) hd he hf
      obtain ⟨r1, r2, r3, r4, r5, r6⟩ := hrec
      refine ⟨by omega, by omega, ?_, r4, r5, r6⟩
      simp only [List.length_cons]
      omega

theorem getD_replicate_zeroElem (n x : Nat) :
    (List.replicate n (zeroElem : Elem K V)).getD x zeroElem = zeroElem := by
  rcases Nat.lt_or_ge x n with hx | hx
  · rw [List.getD_eq_getElem _ _ (by simpa using hx)]
    exact List.getElem_replicate ..
  · exact List.getD_eq_default _ _ (by simpa using hx)

theorem fresh_unocc (m : Map K V) (x : Nat) : ¬ occ (freshDoubled m) x := by
  unfold occ
  have h0 : getSlot (freshDoubled m) x = zeroElem := by
    simp only [getSlot, freshDoubled]
    exact getD_replicate_zeroElem _ _
  rw [h0]
  simp [zeroElem]

theorem rehashTable_preserves (m m2 : Map K V) (hsome : rehashTable m = some m2)
    (hsz : 0 < m.size) (hlen : m.elements.length = m.size) :
    m2.size = 2 * m.size ∧ m2.elements.length = 2 * m.size ∧
    countSet m2.elements = m.size ∧ PslOk m2 ∧ Contig m2 ∧ Adj m2 := by
  have hsome2 : List.foldlM (fun a e => insertKeyValuePair a e.key e.value)
      (freshDoubled m) m.elements = some m2 := hsome
  have hcrep : countSet (freshDoubled m).elements = 0 := countSet_replicate _
  have hres := foldIns_preserves m.elements (freshDoubled m) m2 hsome2
    (show 0 < m.size * 2 by omega)
    (show (List.replicate (m.size * 2) (zeroElem : Elem K V)).length = m.size * 2 by simp)
    (by
      rw [hcrep]
      show 0 + m.elements.length ≤ m.size * 2
      omega)
    (fun i hi hocc => absurd hocc (fresh_unocc m i))
    (fun i hi hocc => absurd hocc (fresh_unocc m i))
    (fun i hi hocc => absurd hocc (fresh_unocc m i))
  obtain ⟨r1, r2, r3, r4, r5, r6⟩ := hres
  rw [hcrep] at r3
  have hr1 : m2.size = m.size * 2 := r1
  have hr2 : m2.elements.length = m.size * 2 := r2
  exact ⟨by omega, by omega, by omega, r4, r5, r6⟩

theorem getWithIndex_sound (m : Map K V) (k : K)
    (hfound : (GetWithIndex m k).2.1 = true) :
    (getSlot m (GetWithIndex m k).2.2).set = true ∧
    (getSlot m (GetWithIndex m k).2.2).key = k := by
  unfold GetWithIndex at hfound ⊢
  by_cases hne : m.numElements = 0
  · rw [if_pos hne] at hfound
    cases hfound
  · rw [if_neg hne] at hfound ⊢
    have h1 := biScan_sound m k _ _ hfound
    exact ⟨h1.1, h1.2.1⟩

theorem mod_succ_pred (sz a : Nat) (hpos : 0 < (a + 1) % sz) :
    (a + 1) % sz - 1 = a % sz := by
  rcases Nat.eq_zero_or_pos sz with h0 | h0
  · subst h0
    simp [Nat.mod_zero]
  · by_cases hsz1 : sz = 1
    · subst hsz1
      simp [Nat.mod_one] at hpos
    · have h2 : (1 : Nat) % sz = 1 := Nat.mod_eq_of_lt (by omega)
      rw [Nat.add_mod, h2] at hpos ⊢
      have hr : a % sz < sz := Nat.mod_lt _ h0
      by_cases hcase : a % sz + 1 < sz
      · rw [Nat.mod_eq_of_lt hcase]
        omega
      · have heq : a % sz + 1 = sz := by omega
        rw [heq, Nat.mod_self] at hpos
        exact absurd hpos (by omega)

theorem getSlot_updateMaxStatsOnDelete (m : Map K V) (x : Nat) :
    getSlot (updateMaxStatsOnDelete m) x = getSlot m x := by
  simp only [getSlot, elements_updateMaxStatsOnDelete]

theorem shiftStep_size (m : Map K V) (i j : Nat) :
    (shiftStep m i j).size = m.size := by
  have h : (shiftStep m i j).size
      = (if (getSlot m i).psl = m.maxPsl then updateMaxStatsOnDelete m else m).size := rfl
  rw [h]
  split
  · exact size_updateMaxStatsOnDelete m
  · rfl

theorem shiftStep_hash (m : Map K V) (i j : Nat) :
    (shiftStep m i j).hash = m.hash := by
  have h : (shiftStep m i j).hash
      = (if (getSlot m i).psl = m.maxPsl then updateMaxStatsOnDelete m else m).hash := rfl
  rw [h]
  split
  · exact hash_updateMaxStatsOnDelete m
  · rfl

theorem shiftStep_elements (m : Map K V) (i j : Nat) :
    (shiftStep m i j).elements =
      ((m.elements.set j ({ getSlot m j with psl := (getSlot m j).psl - 1 })).set i
        ({ getSlot m j with psl := (getSlot m j).psl - 1 })).set j zeroElem := by
  by_cases hc : (getSlot m i).psl = m.maxPsl
  · have h : shiftStep m i j =
        { updateMaxStatsOnDelete m with
          elements := (((updateMaxStatsOnDelete m).elements.set j
            ({ getSlot (updateMaxStatsOnDelete m) j with
               psl := (getSlot (updateMaxStatsOnDelete m) j).psl - 1 })).set i
            ({ getSlot (updateMaxStatsOnDelete m) j with
               psl := (getSlot (updateMaxStatsOnDelete m) j).psl - 1 })).set j zeroElem,
          totalPsl := ((updateMaxStatsOnDelete m).totalPsl + (2 ^ 64 - 1)) % 2 ^ 64 } := by
      unfold shiftStep
      rw [if_pos hc]
    rw [h]
    simp only [getSlot_updateMaxStatsOnDelete, elements_updateMaxStatsOnDelete]
  · have h : shiftStep m i j =
        { m with
          elements := ((m.elements.set j
            ({ getSlot m j with psl := (getSlot m j).psl - 1 })).set i
            ({ getSlot m j with psl := (getSlot m j).psl - 1 })).set j zeroElem,
          totalPsl := (m.totalPsl + (2 ^ 64 - 1)) % 2 ^ 64 } := by
      unfold shiftStep
      rw [if_neg hc]
    rw [h]

theorem shiftStep_pslOk (m : Map K V) (i j : Nat)
    (hlen : m.elements.length = m.size) (hsz : 0 < m.size) (hi : i < m.size)
    (hj : j = (i + 1) % m.size) (hpsl : PslOk m)
    (hocc : occ m j) (hp : 0 < (getSlot m j).psl) :
    PslOk (shiftStep m i j) := by
  have hjlt : j < m.size := by rw [hj]; exact Nat.mod_lt _ hsz
  have hsize := shiftStep_size m i j
  have hhash := shiftStep_hash m i j
  have hel := shiftStep_elements m i j
  set ej : Elem K V := { getSlot m j with psl := (getSlot m j).psl - 1 } with hej
  intro x hx hocx
  rw [hsize] at hx
  by_cases hxj : x = j
  · exfalso
    have hjlen : j < ((m.elements.set j ej).set i ej).length := by
      simp only [List.length_set]
      omega
    have hg : getSlot (shiftStep m i j) j = zeroElem := by
      simp only [getSlot, hel]
      exact getD_set_self _ _ _ _ hjlen
    rw [hxj] at hocx
    have hocx2 : (getSlot (shiftStep m i j) j).set = true := hocx
    rw [hg] at hocx2
    simp [zeroElem] at hocx2
  · by_cases hxi : x = i
    · have hij : i ≠ j := by
        intro hcontra
        apply hxj
        rw [hxi, hcontra]
      have hilen2 : i < (m.elements.set j ej).length := by
        simp only [List.length_set]
        omega
      have hg : getSlot (shiftStep m i j) i = ej := by
        simp only [getSlot, hel]
        rw [getD_set_ne _ _ _ _ _ (fun hcontra => hij hcontra.symm)]
        exact getD_set_self _ _ _ _ hilen2
      have hpj := hpsl j hjlt hocc
      rw [hxi, hg, home_congr _ m hhash hsize, hsize]
      have hkey : ej.key = (getSlot m j).key := rfl
      have hpslv : ej.psl = (getSlot m j).psl - 1 := rfl
      rw [hkey, hpslv]
      set h := home m (getSlot m j).key with hhdef
      have hhlt : h < m.size := Nat.mod_lt _ hsz
      have e1 : (getSlot m j).psl = ((i + (m.size - h)) + 1) % m.size := by
        rw [hpj, hj]
        have step1 : (i + 1) % m.size + m.size - h = (i + 1) % m.size + (m.size - h) := by
          omega
        rw [step1, Nat.mod_add_mod]
        congr 1
        omega
      have e2 : (i + m.size - h) % m.size = (i + (m.size - h)) % m.size := by
        congr 1
        omega
      rw [e1, e2]
      exact mod_succ_pred m.size (i + (m.size - h)) (by rw [← e1]; exact hp)
    · have hg : getSlot (shiftStep m i j) x = getSlot m x := by
        simp only [getSlot, hel]
        rw [getD_set_ne _ _ _ _ _ (fun hcontra => hxj hcontra.symm)]
        rw [getD_set_ne _ _ _ _ _ (fun hcontra => hxi hcontra.symm)]
        rw [getD_set_ne _ _ _ _ _ (fun hcontra => hxj hcontra.symm)]
      have hocx2 : occ m x := by
        have h1 : (getSlot (shiftStep m i j) x).set = true := hocx
        rw [hg] at h1
        exact h1
      have hres := hpsl x hx hocx2
      rw [hg, home_congr _ m hhash hsize, hsize]
      exact hres

theorem shiftLoop_pslOk :
    ∀ fuel (m : Map K V) (i : Nat),
      m.elements.length = m.size → 0 < m.size → i < m.size → PslOk m →
      PslOk (shiftLoop m i ((i + 1) % m.size) fuel) := by
  intro fuel
  induction fuel with
  | zero =>
    intro m i hlen hsz hi hpsl
    exact hpsl
  | succ fuel ih =>
    intro m i hlen hsz hi hpsl
    by_cases hcond : (getSlot m ((i + 1) % m.size)).set = true ∧
      0 < (getSlot m ((i + 1) % m.size)).psl
    · have hunf : shiftLoop m i ((i + 1) % m.size) (fuel + 1) =
          shiftLoop (shiftStep m i ((i + 1) % m.size)) ((i + 1) % m.size)
            (((i + 1) % m.size + 1) % m.size) fuel := by
        simp only [shiftLoop]
        rw [if_pos hcond]
      rw [hunf]
      have hsize := shiftStep_size m i ((i + 1) % m.size)
      have hlen2 : (shiftStep m i ((i + 1) % m.size)).elements.length
          = (shiftStep m i ((i + 1) % m.size)).size := by
        rw [hsize, shiftStep_elements]
        simp only [List.length_set]
        exact hlen
      have hstep := shiftStep_pslOk m i ((i + 1) % m.size) hlen hsz hi rfl hpsl
        hcond.1 hcond.2
      have hshape : ((i + 1) % m.size + 1) % m.size
          = ((i + 1) % m.size + 1) % (shiftStep m i ((i + 1) % m.size)).size := by
        rw [hsize]
      rw [hshape]
      exact ih (shiftStep m i ((i + 1) % m.size)) ((i + 1) % m.size) hlen2
        (by rw [hsize]; exact hsz) (by rw [hsize]; exact Nat.mod_lt _ hsz) hstep
    · have hunf : shiftLoop m i ((i + 1) % m.size) (fuel + 1) = m := by
        simp only [shiftLoop]
        rw [if_neg hcond]
      rw [hunf]
      exact hpsl

theorem delete_preserves_pslOk (m : Map K V) (k : K)
    (hlen : m.elements.length = m.size) (hsz : 0 < m.size) (hpsl : PslOk m) :
    PslOk (Delete m k) := by
  by_cases hne : m.numElements = 0
  · have hD : Delete m k = m := by
      simp only [Delete]
      rw [if_pos hne]
    rw [hD]
    exact hpsl
  · by_cases hfound : (GetWithIndex m k).2.1 = true
    · set i := (GetWithIndex m k).2.2 with hidef
      have hiocc : occ m i := (getWithIndex_sound m k hfound).1
      have hilt : i < m.size := by
        have := occ_lt_length m i hiocc
        omega
      set e : Elem K V := getSlot m i with hedef
      set m1 : Map K V :=
        { m with totalPsl := (m.totalPsl + (2 ^ 64 - e.psl % 2 ^ 64)) % 2 ^ 64,
                 numElements := m.numElements - 1 } with hm1
      set m2 : Map K V :=
        (if m1.numElements = 0 then { m1 with maxFreq := 0, maxPsl := 0 }
         else if e.psl = m1.maxPsl then updateMaxStatsOnDelete m1 else m1) with hm2
      set m3 : Map K V := { m2 with elements := m2.elements.set i zeroElem } with hm3
      have hD : Delete m k = shiftLoop m3 i ((i + 1) % m3.size) (pslSum m3.elements + 1) := by
        simp only [Delete]
        rw [if_neg hne, if_pos hfound]
      rw [hD]
      have hsz2 : m2.size = m.size := by
        rw [hm2]
        split
        · rfl
        · split
          · rw [size_updateMaxStatsOnDelete]
          · rfl
      have hel2 : m2.elements = m.elements := by
        rw [hm2]
        split
        · rfl
        · split
          · rw [elements_updateMaxStatsOnDelete]
          · rfl
      have hhash2 : m2.hash = m.hash := by
        rw [hm2]
        split
        · rfl
        · split
          · rw [hash_updateMaxStatsOnDelete]
          · rfl
      have hsz3 : m3.size = m.size := hsz2
      have hhash3 : m3.hash = m.hash := hhash2
      have hel3 : m3.elements = m.elements.set i zeroElem := by
        rw [hm3]
        show m2.elements.set i zeroElem = m.elements.set i zeroElem
        rw [hel2]
      have hlen3 : m3.elements.length = m3.size := by
        rw [hel3, List.length_set, hsz3]
        exact hlen
      have hpsl3 : PslOk m3 := by
        intro x hx hocx
        rw [hsz3] at hx
        by_cases hxi : x = i
        · exfalso
          have hg : getSlot m3 i = zeroElem := by
            show m3.elements.getD i zeroElem = zeroElem
            rw [hel3]
            exact getD_set_self m.elements i zeroElem zeroElem (by omega)
          have h1 : (getSlot m3 i).set = true := by
            rw [← hxi]
            exact hocx
          rw [hg] at h1
          simp [zeroElem] at h1
        · have hg : getSlot m3 x = getSlot m x := by
            show m3.elements.getD x zeroElem = m.elements.getD x zeroElem
            rw [hel3]
            exact getD_set_ne _ _ _ _ _ (fun hcontra => hxi hcontra.symm)
          have hocx2 : occ m x := by
            have h1 : (getSlot m3 x).set = true := hocx
            rw [hg] at h1
            exact h1
          have hres := hpsl x hx hocx2
          rw [hg, home_congr m3 m hhash3 hsz3, hsz3]
          exact hres
      exact shiftLoop_pslOk (pslSum m3.elements + 1) m3 i hlen3
        (by rw [hsz3]; exact hsz) (by rw [hsz3]; exact hilt) hpsl3
    · have hD : Delete m k = m := by
        simp only [Delete]
        rw [if_neg hne, if_neg hfound]
      rw [hD]
      exact hpsl

theorem overwrite_pslOk (m : Map K V) (i : Nat) (v : V) (hpsl : PslOk m) :
    PslOk (overwriteValue m i v) := by
  intro x hx hocx
  have hproj : (getSlot (overwriteValue m i v) x).set = (getSlot m x).set ∧
      (getSlot (overwriteValue m i v) x).key = (getSlot m x).key ∧
      (getSlot (overwriteValue m i v) x).psl = (getSlot m x).psl := by
    by_cases hxi : x = i
    · subst hxi
      by_cases hlt : x < m.elements.length
      · have h1 : getSlot (overwriteValue m x v) x = { getSlot m x with value := v } := by
          simp only [getSlot, overwriteValue]
          exact getD_set_self _ _ _ _ hlt
        rw [h1]
        exact ⟨rfl, rfl, rfl⟩
      · have h1 : getSlot (overwriteValue m x v) x = getSlot m x := by
          simp only [getSlot, overwriteValue]
          rw [List.set_eq_of_length_le (by omega)]
        rw [h1]
        exact ⟨rfl, rfl, rfl⟩
    · have h1 : getSlot (overwriteValue m i v) x = getSlot m x := by
        simp only [getSlot, overwriteValue]
        exact getD_set_ne _ _ _ _ _ (fun hcontra => hxi hcontra.symm)
      rw [h1]
      exact ⟨rfl, rfl, rfl⟩
  obtain ⟨hset, hkey, hpslp⟩ := hproj
  have hocc2 : occ m x := by
    have h1 : (getSlot (overwriteValue m i v) x).set = true := hocx
    rw [hset] at h1
    exact h1
  have hx2 : x < m.size := hx
  have hres := hpsl x hx2 hocc2
  rw [hpslp, hkey, home_congr (overwriteValue m i v) m rfl rfl]
  exact hres

theorem set_pslOk (m : Map K V) (k : K) (v : V) (m2 : Map K V)
    (hlen : m.elements.length = m.size) (hsz : 0 < m.size)
    (hcnt : countSet m.elements = m.numElements)
    (hpsl : PslOk m) (hcontig : Contig m) (hadj : Adj m)
    (hsome : Set m k v = some m2) : PslOk m2 := by
  have hstep : ∀ (m1 : Map K V),
      m1.elements.length = m1.size → 0 < m1.size → countSet m1.elements < m1.size →
      PslOk m1 → Contig m1 → Adj m1 →
      (if (GetWithIndex m1 k).2.1 = true
        then some (overwriteValue m1 (GetWithIndex m1 k).2.2 v)
        else insertKeyValuePair m1 k v) = some m2 → PslOk m2 := by
    intro m1 hlen1 hsz1 hcnt1 hpsl1 hcontig1 hadj1 hsome1
    by_cases hfound : (GetWithIndex m1 k).2.1 = true
    · rw [if_pos hfound] at hsome1
      have hm2 := Option.some_inj.mp hsome1
      rw [← hm2]
      exact overwrite_pslOk m1 (GetWithIndex m1 k).2.2 v hpsl1
    · rw [if_neg hfound] at hsome1
      exact (insertKeyValuePair_preserves m1 k v m2 hsome1 hlen1 hsz1 hcnt1 hpsl1
        hcontig1 hadj1).2.2.2.1
  by_cases hload : loadCheck m = true
  · have hQ : Set m k v = (rehashTable m).bind (fun m1 =>
        if (GetWithIndex m1 k).2.1 = true
        then some (overwriteValue m1 (GetWithIndex m1 k).2.2 v)
        else insertKeyValuePair m1 k v) := by
      simp only [Set]
      rw [if_pos hload]
      rfl
    rw [hQ] at hsome
    cases hre : rehashTable m with
    | none =>
      rw [hre] at hsome
      simp at hsome
    | some m1 =>
      rw [hre] at hsome
      simp only [Option.bind_eq_bind, Option.some_bind] at hsome
      have hpre := rehashTable_preserves m m1 hre hsz hlen
      obtain ⟨p1, p2, p3, p4, p5, p6⟩ := hpre
      exact hstep m1 (by omega) (by omega) (by omega) p4 p5 p6 hsome
  · have hQ : Set m k v = (if (GetWithIndex m k).2.1 = true
        then some (overwriteValue m (GetWithIndex m k).2.2 v)
        else insertKeyValuePair m k v) := by
      simp only [Set]
      rw [if_neg hload]
      rfl
    rw [hQ] at hsome
    have h1 : ¬ (9 * m.size ≤ 10 * m.numElements) := by
      intro hcontra
      apply hload
      unfold loadCheck
      exact decide_eq_true hcontra
    exact hstep m hlen hsz (by omega) hpsl hcontig hadj hsome

/-- C8: on a table satisfying the structural invariant, every public
mutating operation preserves PSL correctness: after a successful Set
(Robin Hood insertion, including any resize it triggers) and after a
Delete (backward-shift deletion), every occupied slot at index i holding
key k still stores psl = (i + capacity - hash(k) mod capacity) mod
capacity, the Nat form of (i - hash(k) mod capacity) mod capacity. -/
theorem psl_correctness_preserved (m : Map K V) (hinv : Inv m) :
    (∀ k v m2, Set m k v = some m2 → PslOk m2) ∧ ∀ k, PslOk (Delete m k) := by
  obtain ⟨hlen, hsz, hcnt, hpsl, hcontig, hadj⟩ := hinv
  constructor
  · intro k v m2 hsome
    exact set_pslOk m k v m2 hlen hsz hcnt hpsl hcontig hadj hsome
  · intro k
    exact delete_preserves_pslOk m k hlen hsz hpsl

theorem psl_correctness_preserved_witness :
    Inv (tC3 : Map Nat Nat) ∧ PslOk (Delete tC3 10) := by
  have hinv : Inv (tC3 : Map Nat Nat) := by
    unfold Inv PslOk Contig Adj occ home getSlot countSet
    decide
  exact ⟨hinv, (psl_correctness_preserved tC3 hinv).2 10⟩

/-- C10: Get, GetWithIndex and Len never mutate the table: as state
transformers their out-state is the receiver itself, every field
included. -/
theorem lookup_ops_leave_state_unchanged (m : Map K V) (key : K) :
    (GetOp m key).1 = m ∧ (GetWithIndexOp m key).1 = m ∧ (LenOp m).1 = m :=
  ⟨rfl, rfl, rfl⟩

end Rhmap
